import Mathlib

/-
  Verification development for the aihubkr repository.

  Shallow embedding conventions:
  * Python strings are modeled as List Char; response bodies are line oriented text.
  * Python int() on a rational value truncates toward zero; we model numbers that the
    code manipulates as floats by exact rationals (the decimal tokens of the input are
    exactly representable) and int() by pyInt below.
  * The regular expressions of the source are translated into explicit character list
    parsers that reproduce the backtracking behavior of the specific patterns used.
  * pathlib.Path is modeled as a plain string; Path joining is string joining with
    the separator; pathlib normalization of unusual segments is not modeled.
  * The file system of a single directory is an association list from file name to
    byte content (bytes are List Nat); fallible operations return Option.
-/

/-
  Basic character and string helpers (Python semantics).
-/

def isPySpace (c : Char) : Bool :=
  c = ' ' || c = '\t' || c = '\n' || c = '\r' || c = '\x0b' || c = '\x0c'

def isDigitCh (c : Char) : Bool :=
  '0' ≤ c && c ≤ '9'

def pyLowerCh (c : Char) : Char :=
  if 'A' ≤ c && c ≤ 'Z' then Char.ofNat (c.toNat + 32) else c

def pyLower (s : List Char) : List Char :=
  s.map pyLowerCh

/- pyStartsWith s p holds when p is a leading segment of s, as s.startswith(p). -/
def pyStartsWith : List Char → List Char → Bool
  | _, [] => true
  | [], _ :: _ => false
  | c :: s, p :: ps => c = p && pyStartsWith s ps

/- strContains s p holds when p occurs somewhere inside s, as the in operator. -/
def strContains (s p : List Char) : Bool :=
  s.tails.any (fun t => pyStartsWith t p)

def dropTrailWhile (p : Char → Bool) (s : List Char) : List Char :=
  (s.reverse.dropWhile p).reverse

/- Python str.strip with no argument: remove whitespace from both ends. -/
def pyStrip (s : List Char) : List Char :=
  dropTrailWhile isPySpace (s.dropWhile isPySpace)

/- Number of leading whitespace characters, as len(s) - len(s.lstrip()). -/
def pyLstripLen (s : List Char) : Nat :=
  (s.takeWhile isPySpace).length

/- Python str.split(sep) for a one character separator. -/
def splitOnChar (sep : Char) : List Char → List (List Char)
  | [] => [[]]
  | c :: rest =>
    let r := splitOnChar sep rest
    if c = sep then [] :: r
    else
      match r with
      | [] => [[c]]
      | h :: t => (c :: h) :: t

/- sep.join(parts), the inverse of splitOnChar. -/
def joinSep (sep : Char) : List (List Char) → List Char
  | [] => []
  | [l] => l
  | l :: r => l ++ sep :: joinSep sep r

/-
  Python str.splitlines: like splitting on the newline, except that an empty input
  yields no lines and a terminating newline does not produce a final empty line.
  Only the newline character is modeled as a line break.
-/
def pySplitlines (s : List Char) : List (List Char) :=
  let parts := splitOnChar '\n' s
  if parts.getLast? = some [] then parts.dropLast else parts

def digitsVal (ds : List Char) : Nat :=
  ds.foldl (fun a c => a * 10 + (c.toNat - '0'.toNat)) 0

/- The same decimal scaled by the power of ten that clears its fraction digits. -/
def decimalScaled (ip fp : List Char) : ℕ :=
  digitsVal ip * 10 ^ fp.length + digitsVal fp

/-
  float() of a nonnegative decimal string returns infinity exactly when the exact
  value reaches 2 ^ 1024 - 2 ^ 970, the round to nearest even boundary above the
  largest finite double 2 ^ 1024 - 2 ^ 971; int() of that infinity then raises
  OverflowError.  The boundary is spelled as a literal so that it evaluates; the
  theorem floatThreshold_eq below proves it equal to 2 ^ 1024 - 2 ^ 970.  The
  comparison is taken over the fraction cleared scaling.
-/
def floatThreshold : ℕ :=
  179769313486231580793728971405303415079934132710037826936173778980444968292764750946649017977587207096330286416692887910946555547851940402630657488671505820681908902000708383676273854845817711531764475730270069855571366959622842914819860834936475292719074168444365510704342711559699508093042880177904174497792

def floatOverflows (ip fp : List Char) : Bool :=
  floatThreshold * 10 ^ fp.length ≤ decimalScaled ip fp

def kmgtExp (c : Char) : Nat :=
  if c = 'K' then 1 else if c = 'M' then 2 else if c = 'G' then 3
  else if c = 'T' then 4 else 0

def sizeDisplay (ip fp : List Char) (e : Nat) : ℤ :=
  Int.tdiv ((decimalScaled ip fp : ℤ) * 1024 ^ e) (10 ^ fp.length)

def sizeMinPossible (ip fp : List Char) (e : Nat) : ℤ :=
  Int.tdiv ((2 * (decimalScaled ip fp : ℤ) - 10 ^ fp.length) * 1024 ^ e)
    (2 * 10 ^ fp.length)

def sizeMaxPossible (ip fp : List Char) (e : Nat) : ℤ :=
  Int.tdiv (((decimalScaled ip fp : ℤ) + 10 ^ fp.length) * 1024 ^ e) (10 ^ fp.length)

def isUnitCh (c : Char) : Bool :=
  c = 'K' || c = 'M' || c = 'G' || c = 'T'

/-
  The regex of the source, digits with an optional fraction, optional whitespace,
  an optional unit letter among KMGT and the letter B, matched from the start with
  trailing text allowed.  Returns the integer digits, the fraction digits and the
  unit exponent.
-/
def sizeMatch (s : List Char) : Option ((List Char × List Char) × Nat) :=
  let ip := s.takeWhile isDigitCh
  if ip = [] then none
  else
    let r1 := s.dropWhile isDigitCh
    let fr : List Char × List Char :=
      match r1 with
      | '.' :: r =>
        if r.takeWhile isDigitCh = [] then ([], r1)
        else (r.takeWhile isDigitCh, r.dropWhile isDigitCh)
      | _ => ([], r1)
    let r3 := fr.2.dropWhile isPySpace
    match r3 with
    | 'B' :: _ => some ((ip, fr.1), 0)
    | c :: 'B' :: _ => if isUnitCh c then some ((ip, fr.1), kmgtExp c) else none
    | _ => none

/-
  Same token shape used inside the data match regex of the source; consumes the
  token from the front of s and returns the consumed characters and the rest.
-/
def sizeTokTake (s : List Char) : Option (List Char × List Char) :=
  let ip := s.takeWhile isDigitCh
  if ip = [] then none
  else
    let r1 := s.dropWhile isDigitCh
    let fr : List Char × List Char :=
      match r1 with
      | '.' :: r =>
        if r.takeWhile isDigitCh = [] then ([], r1)
        else ('.' :: r.takeWhile isDigitCh, r.dropWhile isDigitCh)
      | _ => ([], r1)
    let ws := fr.2.takeWhile isPySpace
    let r3 := fr.2.dropWhile isPySpace
    match r3 with
    | 'B' :: rest => some (ip ++ fr.1 ++ ws ++ ['B'], rest)
    | c :: 'B' :: rest =>
      if isUnitCh c then some (ip ++ fr.1 ++ ws ++ [c, 'B'], rest) else none
    | _ => none

/-
  After a candidate pipe of the data match regex: optional whitespace, the size
  token, optional whitespace, a pipe, optional whitespace and a nonempty digit run
  (the file key); trailing text is allowed.
-/
def tryPipeSuffix (s : List Char) : Option (List Char × List Char) :=
  let s1 := s.dropWhile isPySpace
  match sizeTokTake s1 with
  | none => none
  | some (tok, r1) =>
    match r1.dropWhile isPySpace with
    | '|' :: r3 =>
      let key := (r3.dropWhile isPySpace).takeWhile isDigitCh
      if key = [] then none else some (tok, key)
    | _ => none

/-
  The data match regex of the source: a greedy leading group, a pipe, the size
  token, a pipe and the file key.  The greedy group means the match uses the
  rightmost pipe whose suffix parses; the group keeps every character before it.
-/
def dataMatch : List Char → Option (List Char × List Char × List Char)
  | [] => none
  | c :: rest =>
    match dataMatch rest with
    | some (g, tok, key) => some (c :: g, tok, key)
    | none =>
      if c = '|' then (tryPipeSuffix rest).map (fun tk => ([], tk.1, tk.2)) else none

/-
  The branch glyph regex of the source: a lazy leading group, then one of the two
  branch glyphs followed by a nonempty greedy dash run and optional whitespace.
  The lazy group means the earliest glyph occurrence is used.
-/
def afterGlyph (s : List Char) : List Char :=
  (s.dropWhile (· = '─')).dropWhile isPySpace

def splitBranch : List Char → Option (List Char × List Char)
  | [] => none
  | c :: rest =>
    if (c = '└' || c = '├') && (match rest with | d :: _ => d = '─' | [] => false) then
      some ([], afterGlyph rest)
    else
      match splitBranch rest with
      | some (pre, rem) => some (c :: pre, rem)
      | none => none

/-
  Header and blank line filter of parse_tree_output; the same condition is used to
  locate the root line and to skip lines in the main loop.
-/

def litContentsEncoded : List Char := ("The contents are encoded").toList
def litIfFollowing : List Char := ("If the following contents").toList
def litPleaseModify : List Char := ("Please modify the character").toList
def litEq17 : List Char := ("=================").toList
def litEq42 : List Char := ("==========================================").toList
def litUtf8Lower : List Char := ("utf-8").toList
def litOutputNormallyLower : List Char := ("output normally").toList
def litModifyLower : List Char := ("modify the character information").toList

def isHeaderOrBlank (line : List Char) : Bool :=
  pyStartsWith line litContentsEncoded
  || pyStartsWith line litIfFollowing
  || pyStartsWith line litPleaseModify
  || pyStartsWith line litEq17
  || pyStartsWith line litEq42
  || pyStartsWith (pyLower (pyStrip line)) litUtf8Lower
  || pyStartsWith (pyLower (pyStrip line)) litOutputNormallyLower
  || pyStartsWith (pyLower (pyStrip line)) litModifyLower
  || pyStrip line = []

/-
  TreeParser data model.  The parent and child references of the source dataclass
  are modeled as an arena: the list of nodes in creation order, each node holding
  the index of its parent.  The children lists of the source are only read by the
  unused to_dict helper and are omitted.
-/

structure TreeNode where
  path : List Char
  file_display_size : Option ℤ
  file_min_possible_size : Option ℤ
  file_max_possible_size : Option ℤ
  file_key : Option (List Char)
  parent : Option Nat
  depth : Nat
deriving DecidableEq, Repr

abbrev FlatEntry := List Char × Bool × Option (List Char) × Option (ℤ × ℤ × ℤ)

instance instDecEqFlatEntry : DecidableEq FlatEntry :=
  fun a b => instDecidableEqProd a b

/-
  Node.full_path: join the parent full path, the separator and the own segment.
  The recursion is fueled by the index: a parent index is strictly smaller than
  the index of the child on every arena the parser builds, so the fuel never
  runs out there; see fullPathAux_congr.
-/
def fullPathAux (arena : List TreeNode) : Nat → Nat → List Char
  | 0, i =>
    match arena.get? i with
    | none => []
    | some nd => nd.path
  | f + 1, i =>
    match arena.get? i with
    | none => []
    | some nd =>
      match nd.parent with
      | none => nd.path
      | some p => if p < i then fullPathAux arena f p ++ '/' :: nd.path else nd.path

def fullPath (arena : List TreeNode) (i : Nat) : List Char :=
  fullPathAux arena i i

structure ParseState where
  arena : List TreeNode
  cur : Nat
  par : Nat
  paths : List FlatEntry

/-
  The reparenting walk: when the new depth is smaller, the source walks the parent
  cursor upward once per missing level, moving only while the cursor has a parent.
-/
def walkUp (arena : List TreeNode) : Nat → Nat → Nat
  | 0, p => p
  | k + 1, p =>
    match (arena.get? p).bind TreeNode.parent with
    | some q => walkUp arena k q
    | none => walkUp arena k p

/- Depth from the leading whitespace of the glyph prefix, one plus a level per 4. -/
def lineDepth (pre : List Char) : Nat :=
  let leading := pyLstripLen pre
  if leading > 0 then leading / 4 + 1 else 1

/-
  The size and key extraction of one line: when the remainder holds a pipe, the
  data match and the size match must both succeed, otherwise the whole line is
  skipped; without a pipe the line is a directory entry.
-/
def lineInfo (rem : List Char) :
    Option (Option (List Char × ℤ × ℤ × ℤ) × List Char) :=
  if rem.contains '|' then
    match dataMatch rem with
    | none => none
    | some (g, tok, key) =>
      match sizeMatch tok with
      | none => none
      | some ((ip, fp), e) =>
        some (some (key, sizeDisplay ip fp e, sizeMinPossible ip fp e,
          sizeMaxPossible ip fp e), g)
  else some (none, rem)

/-
  Creation of one node at depth d: reparent the cursor by the depth rule of the
  source, append the node to the arena, and emit its flat entry.
-/
def attachNode (st : ParseState) (d : Nat) (name : List Char)
    (meta : Option (List Char × ℤ × ℤ × ℤ)) : ParseState :=
  let curDepth := match st.arena.get? st.cur with | some nd => nd.depth | none => 0
  let par2 :=
    if d > curDepth then st.cur
    else if d < curDepth then walkUp st.arena (curDepth - d) st.par
    else st.par
  let newIdx := st.arena.length
  let nd : TreeNode :=
    match meta with
    | none => ⟨name, none, none, none, none, some par2, d⟩
    | some (key, ds, mn, mx) => ⟨name, some ds, some mn, some mx, some key, some par2, d⟩
  let arena2 := st.arena ++ [nd]
  let entry : FlatEntry :=
    match meta with
    | none => (fullPath arena2 newIdx, false, none, none)
    | some (key, ds, mn, mx) => (fullPath arena2 newIdx, true, some key, some (ds, mn, mx))
  ⟨arena2, newIdx, par2, st.paths ++ [entry]⟩

def processLine (st : ParseState) (line : List Char) : ParseState :=
  if isHeaderOrBlank line then st
  else
    match splitBranch line with
    | none => st
    | some (pre, rem) =>
      match lineInfo rem with
      | none => st
      | some (meta, rawName) => attachNode st (lineDepth pre) (pyStrip rawName) meta

/-
  A processed line raises inside the size computation when the data and size
  matches both succeed but the size value overflows the float range, so that the
  int conversion of the display size raises OverflowError; the raise depends only
  on the line, never on the parser state.
-/
def lineRaisesRem (rem : List Char) : Bool :=
  if rem.contains '|' then
    match dataMatch rem with
    | none => false
    | some (_, tok, _) =>
      match sizeMatch tok with
      | none => false
      | some ((ip, fp), _) => floatOverflows ip fp
  else false

def lineRaises (line : List Char) : Bool :=
  if isHeaderOrBlank line then false
  else
    match splitBranch line with
    | none => false
    | some (_, rem) => lineRaisesRem rem

def processLineE (st : ParseState) (line : List Char) : Option ParseState :=
  if lineRaises line then none else some (processLine st line)

def isGlyphOrSpace (c : Char) : Bool :=
  c = '└' || c = '├' || c = '│' || c = '─' || isPySpace c

/-
  The loop over the lines after the first: an OverflowError at any line escapes
  to the broad except clause of the source, discarding the state built so far.
-/
def runFold : ParseState → List (List Char) → Option ParseState
  | st, [] => some st
  | st, l :: ls =>
    match processLineE st l with
    | none => none
    | some st2 => runFold st2 ls

/-
  The main loop of parse_tree_output: the root line is cleaned of leading glyphs,
  the root entry is emitted first, and every line after the first line of the body
  is processed, whatever position the root line was found at.
-/
def runParse (rootLine : List Char) (restLines : List (List Char)) :
    Option (List TreeNode × List FlatEntry) :=
  let rootSeg := (pyStrip rootLine).dropWhile isGlyphOrSpace
  let rootNode : TreeNode := ⟨rootSeg, none, none, none, none, none, 0⟩
  let st0 : ParseState := ⟨[rootNode], 0, 0, [(rootSeg, false, none, none)]⟩
  match runFold st0 restLines with
  | none => none
  | some stF => some (stF.arena, stF.paths)

/-
  parse_tree_output.  The broad except clause of the source returns the none pair
  on every exception; the model reaches it on the empty body, whose first line
  cannot be indexed, and on any processed line whose size value overflows the
  float range.  Further reachable failures of the source, overflow of the unit
  scaled product for finite sizes and the recursion limit of full_path on very
  deep trees, are not modeled: a successful model parse therefore need not be a
  successful run of the source, and the failure theorems below state only the
  directions that hold of the source.
-/
def parseTreeOutput (body : List Char) : Option (List TreeNode × List FlatEntry) :=
  match pySplitlines body with
  | [] => none
  | l0 :: rest =>
    match (l0 :: rest).find? (fun l => !isHeaderOrBlank l) with
    | some rl => runParse rl rest
    | none => runParse l0 rest

/-
  ResponsePreprocessor, from downloader._process_response.  The body is split on
  the newline, a three line boilerplate prefix is dropped when each of its lines
  contains the expected marker, a notice section is located and rewritten, and the
  joined result is stripped on both ends.
-/

def litUTF8 : List Char := ("UTF-8").toList
def litOutputNormally : List Char := ("output normally").toList
def litModifyInfo : List Char := ("modify the character information").toList
def litNoticeTag : List Char := ("Notice:").toList

def boilerTriple (ls : List (List Char)) : Bool :=
  match ls with
  | l0 :: l1 :: l2 :: _ =>
    strContains l0 litUTF8 && strContains l1 litOutputNormally
      && strContains l2 litModifyInfo
  | _ => false

def boilerStrip (ls : List (List Char)) : List (List Char) :=
  if boilerTriple ls then ls.drop 3 else ls

/-
  The notice opening delimiter: a run of at least three equality signs, optional
  whitespace, the two Korean words of the notice marker separated by optional
  whitespace, and another run of at least three equality signs; the regex is
  applied with search, so the pattern may begin anywhere in the line.
-/
def noticeCore (s : List Char) : Bool :=
  if (s.takeWhile (· = '=')).length < 3 then false
  else
    match (s.dropWhile (· = '=')).dropWhile isPySpace with
    | '공' :: '지' :: r2 =>
      match r2.dropWhile isPySpace with
      | '사' :: '항' :: r4 =>
        ((r4.dropWhile isPySpace).takeWhile (· = '=')).length ≥ 3
      | _ => false
    | _ => false

def noticeOpen (s : List Char) : Bool :=
  s.tails.any noticeCore

/- The closing delimiter: the line begins with a run of at least three equality signs. -/
def eqRun3 (s : List Char) : Bool :=
  (s.takeWhile (· = '=')).length ≥ 3

/-
  The scan of the source: walk the lines, remembering the latest opening line; on
  the first closing line seen after an opening line, stop with both indices.  A
  line matching the opening pattern is never tested against the closing pattern.
-/
def findNotice : List (List Char) → Nat → Option Nat → Option (Nat × Nat)
  | [], _, _ => none
  | l :: rest, i, st =>
    if noticeOpen l then findNotice rest (i + 1) (some i)
    else
      match st with
      | some s => if eqRun3 l then some (s, i) else findNotice rest (i + 1) (some s)
      | none => findNotice rest (i + 1) none

/-
  Rewrite of the notice block: a whitespace only interior removes the two
  delimiters, the interior and the single line after the closing delimiter;
  otherwise the same region is replaced by one reformatted notice element.
-/
def noticeRewrite (ls : List (List Char)) : List (List Char) :=
  match findNotice ls 0 none with
  | none => ls
  | some (s, e) =>
    let interior := joinSep '\n' ((ls.take e).drop (s + 1))
    if pyStrip interior = [] then ls.take s ++ ls.drop (e + 2)
    else ls.take s ++ [litNoticeTag ++ '\n' :: interior ++ ['\n']] ++ ls.drop (e + 2)

def cleanContent (content : List Char) : List Char :=
  pyStrip (joinSep '\n' (noticeRewrite (boilerStrip (splitOnChar '\n' content))))

/-
  The full response processing: content is produced for carrier status 200 or 502,
  any other status yields a failure flag and no content.
-/
def processResponse (statusCode : Nat) (text : List Char) : Bool × Option (List Char) :=
  if statusCode = 200 || statusCode = 502 then (true, some (cleanContent text))
  else (false, none)

/-
  DownloadOrchestrator, from downloader._download_with_requests.  A response is
  its transport status and the streamed chunks; the output directory is an
  association list from file name to byte content.  raise_for_status raises on
  any client or server error status, entering the except branch before the
  output file is opened; status 502 is reported as the consent requirement with
  the remediation URL, any other error is a plain network failure.
-/

structure HttpResp where
  status : Nat
  chunks : List (List Nat)
deriving DecidableEq

abbrev FileSys := List (List Char × List Nat)

def fsLookup : FileSys → List Char → Option (List Nat)
  | [], _ => none
  | (k, v) :: rest, n => if k = n then some v else fsLookup rest n

def fsInsert : FileSys → List Char → List Nat → FileSys
  | [], n, c => [(n, c)]
  | (k, v) :: rest, n, c =>
    if k = n then (n, c) :: rest else (k, v) :: fsInsert rest n c

/-
  Response.raise_for_status of the requests library raises HTTPError exactly for
  the client and server error ranges 400..599; a status of 600 or more does not
  raise and the download proceeds to write the archive.
-/
def statusRaises (status : Nat) : Bool :=
  400 ≤ status && status < 600

inductive DLClass where
  | consentRequired (url : List Char)
  | networkError
deriving DecidableEq

def litFormUrlPre : List Char := ("https://aihub.or.kr/aihubdata/data/dwld.do?dataSetSn=").toList
def litTarName : List Char := ("dataset.tar").toList

def formUrl (datasetKey : List Char) : List Char :=
  litFormUrlPre ++ datasetKey

def downloadWithRequests (datasetKey : List Char) (resp : HttpResp) (fs : FileSys) :
    Bool × FileSys × Option DLClass :=
  if statusRaises resp.status then
    if resp.status = 502 then (false, fs, some (DLClass.consentRequired (formUrl datasetKey)))
    else (false, fs, some DLClass.networkError)
  else (true, fsInsert fs litTarName resp.chunks.flatten, none)

/-
  CLI preflight, from cli.main lines 182..219.  The file database maps each file
  key to the path and the size band of the entry, later entries overwriting
  earlier ones; the selector is split on commas; the token all switches to the
  sum over the whole database; an unknown token aborts; finally the summed upper
  bound is compared against the available space before any download request.
-/

structure FileBand where
  display : ℤ
  minSize : ℤ
  maxSize : ℤ
deriving DecidableEq

abbrev FileDb := List (List Char × (List Char × FileBand))

def dbLookup : FileDb → List Char → Option (List Char × FileBand)
  | [], _ => none
  | (k, v) :: rest, n => if k = n then some v else dbLookup rest n

def dbInsert : FileDb → List Char → (List Char × FileBand) → FileDb
  | [], n, v => [(n, v)]
  | (k, w) :: rest, n, v =>
    if k = n then (n, v) :: rest else (k, w) :: dbInsert rest n v

def buildFileDb (paths : List FlatEntry) : FileDb :=
  paths.foldl
    (fun db ent =>
      match ent with
      | (p, true, some k, some (d, mn, mx)) => dbInsert db k (p, ⟨d, mn, mx⟩)
      | _ => db)
    []

def sumMins (db : FileDb) : ℤ :=
  (db.map (fun ent => ent.2.2.minSize)).sum

def sumMaxs (db : FileDb) : ℤ :=
  (db.map (fun ent => ent.2.2.maxSize)).sum

def litAll : List Char := ("all").toList

def preflightLoop (db : FileDb) : List (List Char) → ℤ → ℤ → Option (ℤ × ℤ)
  | [], mn, mx => some (mn, mx)
  | t :: rest, mn, mx =>
    if t = litAll then some (sumMins db, sumMaxs db)
    else
      match dbLookup db t with
      | none => none
      | some (_, band) => preflightLoop db rest (mn + band.minSize) (mx + band.maxSize)

def preflightSizes (selector : List Char) (db : FileDb) : Option (ℤ × ℤ) :=
  preflightLoop db (splitOnChar ',' selector) 0 0

inductive PreflightResult where
  | keyNotFound
  | insufficientDiskSpace (mn mx : ℤ)
  | proceed (mn mx : ℤ)
deriving DecidableEq

def cliPreflight (selector : List Char) (db : FileDb) (freeSpace : ℤ) : PreflightResult :=
  match preflightSizes selector db with
  | none => PreflightResult.keyNotFound
  | some (mn, mx) =>
    if mx > freeSpace then PreflightResult.insufficientDiskSpace mn mx
    else PreflightResult.proceed mn mx

def litDownBase : List Char := ("https://api.aihub.or.kr/down/").toList
def litDoFileSn : List Char := (".do?fileSn=").toList

def downloadUrl (datasetKey selector : List Char) : List Char :=
  litDownBase ++ datasetKey ++ litDoFileSn ++ selector

/-
  The download mode of the CLI issues its download request only when the
  preflight proceeds; a key error or the disk space check stop the flow first.
-/
def cliDownloadAction (datasetKey selector : List Char) (db : FileDb) (freeSpace : ℤ) :
    Option (List Char) :=
  match cliPreflight selector db freeSpace with
  | PreflightResult.proceed _ _ => some (downloadUrl datasetKey selector)
  | _ => none

/-
  PartMerger, from downloader._merge_parts and _merge_parts_in_subdirs, modeled
  on one directory.  The part regex is searched case insensitively anywhere in
  the name; the split of a name into stem and numeric suffix uses the rightmost
  case sensitive occurrence of the part marker; the grouping filter keeps every
  part file whose name begins with the prefix of the group.
-/

def litPartTag : List Char := (".part").toList

def containsPartTag (name : List Char) : Bool :=
  (pyLower name).tails.any
    (fun t =>
      pyStartsWith t litPartTag
        && (match t.drop 5 with | c :: _ => isDigitCh c | [] => false))

/- Python rsplit with the part marker and one split: cut at the last occurrence. -/
def rsplitPart : List Char → Option (List Char × List Char)
  | [] => none
  | c :: rest =>
    match rsplitPart rest with
    | some (pre, suf) => some (c :: pre, suf)
    | none =>
      if pyStartsWith (c :: rest) litPartTag then some ([], (c :: rest).drop 5)
      else none

def stemOf (f : List Char) : List Char :=
  match rsplitPart f with
  | some (pre, _) => pre
  | none => f

/-
  Python int() applied to the suffix text: surrounding whitespace and one sign
  are accepted, the digits must be nonempty and exhaust the rest.  Underscore
  digit grouping is not modeled.
-/
def pyIntParse (s : List Char) : Option ℤ :=
  match pyStrip s with
  | '+' :: ds => if ds ≠ [] && ds.all isDigitCh then some (digitsVal ds : ℤ) else none
  | '-' :: ds => if ds ≠ [] && ds.all isDigitCh then some (-(digitsVal ds : ℤ)) else none
  | ds => if ds ≠ [] && ds.all isDigitCh then some (digitsVal ds : ℤ) else none

def partNum (f : List Char) : Option ℤ :=
  match rsplitPart f with
  | some (_, suf) => pyIntParse suf
  | none => none

/- Stable insertion keeping an earlier element before later elements of equal key. -/
def insSorted (key : List Char → ℤ) (x : List Char) :
    List (List Char) → List (List Char)
  | [] => [x]
  | y :: ys => if key y < key x then y :: insSorted key x ys else x :: y :: ys

def stableSortByKey (key : List Char → ℤ) : List (List Char) → List (List Char)
  | [] => []
  | x :: xs => insSorted key x (stableSortByKey key xs)

/- The sorted call of the source: computing any key may raise, failing the merge. -/
def sortParts (names : List (List Char)) : Option (List (List Char)) :=
  if names.all (fun f => (partNum f).isSome) then
    some (stableSortByKey (fun f => (partNum f).getD 0) names)
  else none

def fsRemoveChecked (fs : FileSys) (n : List Char) : Option FileSys :=
  if (fsLookup fs n).isSome then some (fs.filter (fun ent => ent.1 ≠ n)) else none

def fsAppendTo (fs : FileSys) (n : List Char) (c : List Nat) : FileSys :=
  match fsLookup fs n with
  | some old => fsInsert fs n (old ++ c)
  | none => fsInsert fs n c

/- Sequential copy loop of one group: read each part, appending onto the output. -/
def mergeLoop (stem : List Char) : FileSys → List (List Char) → Option FileSys
  | fs, [] => some fs
  | fs, n :: ns =>
    match fsLookup fs n with
    | none => none
    | some c => mergeLoop stem (fsAppendTo fs stem c) ns

def removeAll : FileSys → List (List Char) → Option FileSys
  | fs, [] => some fs
  | fs, n :: ns =>
    match fsRemoveChecked fs n with
    | none => none
    | some fs2 => removeAll fs2 ns

/-
  One group: sort the part names numerically, truncate the output file, copy the
  parts in order, then delete the parts.
-/
def mergeGroup (fs : FileSys) (stem : List Char) (files : List (List Char)) :
    Option FileSys :=
  match sortParts files with
  | none => none
  | some sorted =>
    match mergeLoop stem (fsInsert fs stem []) sorted with
    | none => none
    | some fs2 => removeAll fs2 sorted

def partFileNames (fs : FileSys) : List (List Char) :=
  (fs.map Prod.fst).filter containsPartTag

/-
  The set of prefixes of the source; the iteration order of a Python set is not
  specified, modeled as first occurrence order.
-/
def dedupFirstAux : Nat → List (List Char) → List (List Char)
  | _, [] => []
  | 0, _ :: _ => []
  | n + 1, x :: xs => x :: dedupFirstAux n (xs.filter (fun y => y ≠ x))

def dedupFirst (l : List (List Char)) : List (List Char) :=
  dedupFirstAux l.length l

def stemsOf (names : List (List Char)) : List (List Char) :=
  dedupFirst (names.map stemOf)

def mergeFold (pf : List (List Char)) : FileSys → List (List Char) → Option FileSys
  | fs, [] => some fs
  | fs, st :: rest =>
    match mergeGroup fs st (pf.filter (fun f => pyStartsWith f st)) with
    | none => none
    | some fs2 => mergeFold pf fs2 rest

def mergeParts (fs : FileSys) : Option FileSys :=
  mergeFold (partFileNames fs) fs (stemsOf (partFileNames fs))

/-
  The per directory guard of _merge_parts_in_subdirs: a directory is merged only
  when some file name matches the part regex.
-/
def mergePartsGuard (fs : FileSys) : Option FileSys :=
  if (fs.map Prod.fst).any containsPartTag then mergeParts fs else some fs

/-
  Following the words of the spec, for comparison with mergeParts: files are
  grouped by their exact prefix, each group is sorted numerically by the part
  number and concatenated from the original directory contents.
-/
def specGroup (pf : List (List Char)) (st : List Char) : List (List Char) :=
  pf.filter (fun f => stemOf f = st)

def readAllFrom (fs : FileSys) : List (List Char) → Option (List Nat)
  | [] => some []
  | n :: ns =>
    match fsLookup fs n with
    | none => none
    | some c =>
      match readAllFrom fs ns with
      | none => none
      | some rest => some (c ++ rest)

def specNumericConcat (fs : FileSys) (group : List (List Char)) : Option (List Nat) :=
  match sortParts group with
  | none => none
  | some sorted => readAllFrom fs sorted

/-
  A part file name is well formed when the rightmost part marker split succeeds
  and the suffix is a nonempty digit run; the amended merge claim is restricted
  to directories whose part files are all well formed.
-/
def wellFormedPart (f : List Char) : Bool :=
  match rsplitPart f with
  | some (_, n) => !n.isEmpty && n.all isDigitCh
  | none => false

/-
  Structural invariants of the parser state, used to prove the depth and path
  properties of every parsed tree.
-/

def ArenaInv (arena : List TreeNode) : Prop :=
  ∀ i nd p, arena.get? i = some nd → nd.parent = some p →
    p < i ∧ ∃ pnd, arena.get? p = some pnd ∧ pnd.depth < nd.depth

def RootedInv (arena : List TreeNode) : Prop :=
  ∀ i nd, arena.get? i = some nd → nd.parent = none → nd.depth = 0

def StInv (st : ParseState) : Prop :=
  ArenaInv st.arena ∧ RootedInv st.arena ∧ st.par < st.arena.length
    ∧ ∃ cnd, st.arena.get? st.cur = some cnd
        ∧ (cnd.parent = some st.par ∨ cnd.depth = 0)

/-
  Concrete inputs used by witnesses and counterexamples.
-/

def exMergeDir : FileSys :=
  [(("x.part10").toList, [10]), (("x.part1").toList, [1]), (("x.part2").toList, [2]),
   (("x.part3").toList, [3]), (("x.part4").toList, [4]), (("x.part5").toList, [5]),
   (("x.part6").toList, [6]), (("x.part7").toList, [7]), (("x.part8").toList, [8]),
   (("x.part9").toList, [9])]

def exOverlapDir : FileSys :=
  [(("x.part1").toList, [1]), (("xy.part2").toList, [2])]

/-
  A body whose last line carries a four hundred digit size: float() of that
  mantissa is infinite and the int conversion raises, so the source discards the
  whole parse even though the first file line was fine.
-/
def nines400 : List Char := List.replicate 400 '9'

def exOverflowLine : List Char :=
  ("├── b.txt | ").toList ++ nines400 ++ ("B | 2").toList

def exOverflowBody : List Char :=
  ("root\n├── a.txt | 1KB | 1\n").toList ++ exOverflowLine

def exGoodPrefixBody : List Char :=
  ("root\n├── a.txt | 1KB | 1").toList

def exNoticeEmptyBody : List Char :=
  ("UTF-8\noutput normally\nmodify the character information\n=== 공지 사항 ===\n\n===\n\nafter content").toList

def exNoticeKeepBody : List Char :=
  ("UTF-8\noutput normally\nmodify the character information\n=== 공지 사항 ===\n\n===\n\nNotice: keep").toList

def exDoubleBoilerBody : List Char :=
  ("UTF-8\noutput normally\nmodify the character information\nUTF-8\noutput normally\nmodify the character information\ndata").toList

def exFileDb : FileDb :=
  [(['1'], ([], ⟨1000, 900, 1100⟩)), (['2'], ([], ⟨2000, 1900, 2300⟩))]

def exTreeBody : List Char :=
  ("dataset_001\n├── README.txt | 1.5KB | 1\n└── data.txt | 2.3MB | 2").toList

def exTreeArena : List TreeNode :=
  [⟨("dataset_001").toList, none, none, none, none, none, 0⟩,
   ⟨("README.txt").toList, some 1536, some 1024, some 2560, some ['1'], some 0, 1⟩,
   ⟨("data.txt").toList, some 2411724, some 1887436, some 3460300, some ['2'], some 0, 1⟩]

def exTreeEntries : List FlatEntry :=
  [(("dataset_001").toList, false, none, none),
   (("dataset_001/README.txt").toList, true, some ['1'], some (1536, 1024, 2560)),
   (("dataset_001/data.txt").toList, true, some ['2'], some (2411724, 1887436, 3460300))]

/-
  Theorems.  First the bridge between the integer computations of the embedding
  and the exact rational value of the size token.
-/

theorem splitOnChar_ne_nil (sep : Char) (s : List Char) : splitOnChar sep s ≠ [] := by
  induction s with
  | nil => simp [splitOnChar]
  | cons c rest ih =>
    simp only [splitOnChar]
    by_cases h : c = sep
    · simp [h]
    · rw [if_neg h]
      split
      · simp
      · simp

theorem splitOnChar_eq_single_nil (sep : Char) (s : List Char)
    (h : splitOnChar sep s = [[]]) : s = [] := by
  cases s with
  | nil => rfl
  | cons c rest =>
    exfalso
    simp only [splitOnChar] at h
    by_cases hc : c = sep
    · rw [if_pos hc] at h
      have hne := splitOnChar_ne_nil sep rest
      simp at h
      exact hne h
    · rw [if_neg hc] at h
      rcases hr : splitOnChar sep rest with _ | ⟨a, b⟩
      · rw [hr] at h
        simp at h
      · rw [hr] at h
        simp at h

theorem pySplitlines_eq_nil_iff (s : List Char) : pySplitlines s = [] ↔ s = [] := by
  constructor
  · intro h
    by_contra hs
    unfold pySplitlines at h
    by_cases hlast : (splitOnChar '\n' s).getLast? = some []
    · rw [if_pos hlast] at h
      rcases hp : splitOnChar '\n' s with _ | ⟨a, t⟩
      · exact splitOnChar_ne_nil '\n' s hp
      · rcases t with _ | ⟨b, u⟩
        · rw [hp] at hlast
          simp at hlast
          exact hs (splitOnChar_eq_single_nil '\n' s (by rw [hp, hlast]))
        · rw [hp] at h
          simp at h
    · rw [if_neg hlast] at h
      exact splitOnChar_ne_nil '\n' s h
  · rintro rfl
    decide

/- The spelled out overflow boundary is the round to even boundary of the doubles. -/
theorem floatThreshold_eq : floatThreshold = 2 ^ 1024 - 2 ^ 970 := by
  norm_num [floatThreshold]

/-
  A raising line anywhere in the processed lines poisons the whole loop: the
  state built from the earlier lines is discarded, whatever it was.
-/
theorem runFold_poison (line : List Char) (hr : lineRaises line = true) :
    ∀ (ls : List (List Char)) (st : ParseState), line ∈ ls → runFold st ls = none := by
  intro ls
  induction ls with
  | nil =>
    intro st hmem
    simp at hmem
  | cons l rest ih =>
    intro st hmem
    rcases List.mem_cons.mp hmem with h1 | h2
    · subst h1
      simp only [runFold, processLineE]
      rw [if_pos hr]
    · simp only [runFold]
      rcases hpe : processLineE st l with _ | st2
      · rfl
      · exact ih st2 h2

/--
Claim C9: the parse is all or nothing at the top level.  The empty body parses
to the none pair; and whenever any line after the first raises inside its size
computation, with a size value whose float overflows under the int conversion,
the whole parse returns the none pair, never a partially built tree or entry
list, even though individually malformed lines are merely skipped.
-/
theorem c9_all_or_nothing (body : List Char) :
    (body = [] → parseTreeOutput body = none)
    ∧ (∀ line ∈ (pySplitlines body).drop 1, lineRaises line = true →
        parseTreeOutput body = none) := by
  constructor
  · rintro rfl
    rfl
  · intro line hline hr
    unfold parseTreeOutput
    rcases hp : pySplitlines body with _ | ⟨l0, rest⟩
    · rfl
    · rw [hp] at hline
      have hline2 : line ∈ rest := by simpa using hline
      have hnone : ∀ rl, runParse rl rest = none := by
        intro rl
        unfold runParse
        dsimp only
        rw [runFold_poison line hr rest _ hline2]
      dsimp only
      cases List.find? (fun l => !isHeaderOrBlank l) (l0 :: rest) with
      | none => exact hnone l0
      | some rl => exact hnone rl

set_option maxRecDepth 100000 in
/--
Witness for claim C9: the empty body parses to the none pair; the body whose
last line carries a four hundred digit size parses to the none pair as a whole
even though its two line prefix alone parses successfully, so the entries
already built from the good lines are discarded, never returned partially.
-/
theorem c9_all_or_nothing_witness :
    parseTreeOutput [] = none
    ∧ parseTreeOutput exOverflowBody = none
    ∧ (parseTreeOutput exGoodPrefixBody).isSome = true := by
  refine ⟨(c9_all_or_nothing []).1 rfl, ?_, by decide⟩
  exact (c9_all_or_nothing exOverflowBody).2 exOverflowLine (by decide) (by decide)

/--
Claim C4: a download failure whose carrier status is 502 is classified as the
consent requirement carrying the remediation URL built from the dataset key and
the fixed portal address, never as a plain network failure, and the download
reports no success.
-/
theorem c4_consent_on_502 (k : List Char) (resp : HttpResp) (fs : FileSys)
    (h502 : resp.status = 502) :
    (downloadWithRequests k resp fs).2.2 = some (DLClass.consentRequired (formUrl k))
    ∧ (downloadWithRequests k resp fs).2.2 ≠ some DLClass.networkError
    ∧ (downloadWithRequests k resp fs).1 = false := by
  unfold downloadWithRequests
  rw [h502]
  have hr : statusRaises 502 = true := by decide
  rw [hr]
  simp

/--
Witness for claim C4 at a concrete dataset key and a concrete 502 response.
-/
theorem c4_consent_on_502_witness :
    (downloadWithRequests (("576").toList) ⟨502, []⟩ []).2.2
        = some (DLClass.consentRequired (formUrl (("576").toList)))
    ∧ (downloadWithRequests (("576").toList) ⟨502, []⟩ []).2.2
        ≠ some DLClass.networkError
    ∧ (downloadWithRequests (("576").toList) ⟨502, []⟩ []).1 = false :=
  c4_consent_on_502 (("576").toList) ⟨502, []⟩ [] rfl

/--
Claim C10: when the status check of the download raises, the function reports
failure and the output directory is unchanged, so the archive file was never
created on this path.
-/
theorem c10_no_write_on_error (k : List Char) (resp : HttpResp) (fs : FileSys)
    (h : statusRaises resp.status = true) :
    (downloadWithRequests k resp fs).1 = false
    ∧ (downloadWithRequests k resp fs).2.1 = fs := by
  unfold downloadWithRequests
  rw [h]
  by_cases h5 : resp.status = 502 <;> simp [h5]

/--
Witness for claim C10 at a concrete 404 response over an empty directory: the
archive file is absent afterwards.
-/
theorem c10_no_write_on_error_witness :
    (downloadWithRequests (("576").toList) ⟨404, [[7]]⟩ []).1 = false
    ∧ (downloadWithRequests (("576").toList) ⟨404, [[7]]⟩ []).2.1 = []
    ∧ fsLookup (downloadWithRequests (("576").toList) ⟨404, [[7]]⟩ []).2.1 litTarName
        = none := by
  have h := c10_no_write_on_error (("576").toList) ⟨404, [[7]]⟩ [] (by decide)
  exact ⟨h.1, h.2, by rw [h.2]; rfl⟩

/--
Claim C3: the preflight of the download mode sums the minimum and maximum size
bands over the file database when the selector token is all; a selector whose
sizes cannot be resolved because of an unknown key stops the flow with the key
error before any download request; when the summed maximum exceeds the free
space the flow stops with the disk space error and no download request is made.
-/
theorem c3_preflight (db : FileDb) (freeSpace : ℤ) (datasetKey sel : List Char) :
    preflightSizes litAll db = some (sumMins db, sumMaxs db)
    ∧ (preflightSizes sel db = none →
        cliPreflight sel db freeSpace = PreflightResult.keyNotFound
        ∧ cliDownloadAction datasetKey sel db freeSpace = none)
    ∧ (∀ mn mx, preflightSizes sel db = some (mn, mx) → freeSpace < mx →
        cliPreflight sel db freeSpace = PreflightResult.insufficientDiskSpace mn mx
        ∧ cliDownloadAction datasetKey sel db freeSpace = none) := by
  refine ⟨?_, ?_, ?_⟩
  · unfold preflightSizes
    have h : splitOnChar ',' litAll = [litAll] := rfl
    rw [h]
    simp [preflightLoop]
  · intro h
    have hp : cliPreflight sel db freeSpace = PreflightResult.keyNotFound := by
      unfold cliPreflight
      rw [h]
    refine ⟨hp, ?_⟩
    unfold cliDownloadAction
    rw [hp]
  · intro mn mx h hlt
    have hp : cliPreflight sel db freeSpace
        = PreflightResult.insufficientDiskSpace mn mx := by
      unfold cliPreflight
      rw [h]
      have hgt : mx > freeSpace := hlt
      dsimp only
      rw [if_pos hgt]
    refine ⟨hp, ?_⟩
    unfold cliDownloadAction
    rw [hp]

/--
Witness for claim C3 at the concrete database of the claim: with bands 900 to
1100 and 1900 to 2300 the selector all sums to 2800 and 3400; with free space
3000 the flow stops on the disk space error with no download request; an
unknown key stops the flow with the key error and no download request.
-/
theorem c3_preflight_witness :
    preflightSizes litAll exFileDb = some (2800, 3400)
    ∧ cliPreflight litAll exFileDb 3000 = PreflightResult.insufficientDiskSpace 2800 3400
    ∧ cliDownloadAction (("576").toList) litAll exFileDb 3000 = none
    ∧ cliPreflight ['9'] exFileDb 3000 = PreflightResult.keyNotFound
    ∧ cliDownloadAction (("576").toList) ['9'] exFileDb 3000 = none := by
  have hall := (c3_preflight exFileDb 3000 (("576").toList) litAll).1
  have hs : preflightSizes litAll exFileDb = some (2800, 3400) := by
    rw [hall]
    decide
  have hins := (c3_preflight exFileDb 3000 (("576").toList) litAll).2.2 2800 3400 hs
    (by decide)
  have hkey := (c3_preflight exFileDb 3000 (("576").toList) ['9']).2.1 (by decide)
  exact ⟨hs, hins.1, hins.2, hkey.1, hkey.2⟩

/-
  The fueled full path does not depend on the fuel once the fuel is at least the
  index, because the recursion only descends to strictly smaller indices.
-/
theorem fullPathAux_congr (arena : List TreeNode) :
    ∀ i f g, i ≤ f → i ≤ g → fullPathAux arena f i = fullPathAux arena g i := by
  intro i
  induction i using Nat.strong_induction_on with
  | _ i ih =>
    intro f g hf hg
    cases f with
    | zero =>
      have hi : i = 0 := Nat.le_zero.mp hf
      subst hi
      cases g with
      | zero => rfl
      | succ g2 =>
        simp only [fullPathAux]
        cases harena : arena.get? 0 with
        | none => rfl
        | some nd =>
          dsimp only
          cases hp : nd.parent with
          | none => rfl
          | some p =>
            dsimp only
            rw [if_neg (Nat.not_lt_zero p)]
    | succ f2 =>
      cases g with
      | zero =>
        have hi : i = 0 := Nat.le_zero.mp hg
        subst hi
        simp only [fullPathAux]
        cases harena : arena.get? 0 with
        | none => rfl
        | some nd =>
          dsimp only
          cases hp : nd.parent with
          | none => rfl
          | some p =>
            dsimp only
            rw [if_neg (Nat.not_lt_zero p)]
      | succ g2 =>
        simp only [fullPathAux]
        cases harena : arena.get? i with
        | none => rfl
        | some nd =>
          dsimp only
          cases hp : nd.parent with
          | none => rfl
          | some p =>
            dsimp only
            by_cases hpi : p < i
            · rw [if_pos hpi, if_pos hpi, ih p hpi f2 g2 (by omega) (by omega)]
            · rw [if_neg hpi, if_neg hpi]

/-
  The defining recurrence of the full path at a node with a parent of strictly
  smaller index.
-/
theorem fullPath_parent (arena : List TreeNode) (i p : Nat) (nd : TreeNode)
    (h : arena.get? i = some nd) (hp : nd.parent = some p) (hpi : p < i) :
    fullPath arena i = fullPath arena p ++ '/' :: nd.path := by
  unfold fullPath
  obtain ⟨i2, rfl⟩ : ∃ i2, i = i2 + 1 := ⟨i - 1, by omega⟩
  conv_lhs => rw [fullPathAux]
  rw [h]
  dsimp only
  rw [hp]
  dsimp only
  rw [if_pos hpi, fullPathAux_congr arena p i2 p (by omega) le_rfl]

theorem lineDepth_pos (pre : List Char) : 1 ≤ lineDepth pre := by
  simp only [lineDepth]
  split
  · omega
  · omega

theorem walkUp_valid (arena : List TreeNode) (hA : ArenaInv arena) :
    ∀ k p, p < arena.length → walkUp arena k p < arena.length := by
  intro k
  induction k with
  | zero =>
    intro p hp
    exact hp
  | succ k2 ih =>
    intro p hp
    simp only [walkUp]
    cases hb : (arena.get? p).bind TreeNode.parent with
    | none => exact ih p hp
    | some q =>
      obtain ⟨nd, hnd, hq⟩ := Option.bind_eq_some.mp hb
      have hlt := (hA p nd q hnd hq).1
      exact ih q (Nat.lt_trans hlt hp)

theorem walkUp_depth (arena : List TreeNode) (hA : ArenaInv arena)
    (hR : RootedInv arena) :
    ∀ k p nd, arena.get? p = some nd →
      ∃ wnd, arena.get? (walkUp arena k p) = some wnd
        ∧ (wnd.depth + k ≤ nd.depth ∨ wnd.depth = 0) := by
  intro k
  induction k with
  | zero =>
    intro p nd h
    exact ⟨nd, h, Or.inl (by omega)⟩
  | succ k2 ih =>
    intro p nd h
    simp only [walkUp]
    cases hb : (arena.get? p).bind TreeNode.parent with
    | none =>
      have hpar : nd.parent = none := by
        rw [h] at hb
        simpa using hb
      have hd0 : nd.depth = 0 := hR p nd h hpar
      obtain ⟨wnd, hw, hor⟩ := ih p nd h
      refine ⟨wnd, hw, Or.inr ?_⟩
      rcases hor with h1 | h2
      · omega
      · exact h2
    | some q =>
      have hq : nd.parent = some q := by
        rw [h] at hb
        simpa using hb
      obtain ⟨hqlt, qnd, hqnd, hqd⟩ := hA p nd q h hq
      obtain ⟨wnd, hw, hor⟩ := ih q qnd hqnd
      refine ⟨wnd, hw, ?_⟩
      rcases hor with h1 | h2
      · exact Or.inl (by omega)
      · exact Or.inr h2

/-
  Appending one node whose parent is a valid index of strictly smaller depth
  preserves the parser state invariant; the new node becomes the cursor.
-/
theorem stInv_append (arena : List TreeNode) (nd : TreeNode) (paths2 : List FlatEntry)
    (hA : ArenaInv arena) (hR : RootedInv arena)
    (p2 : Nat) (hp2 : p2 < arena.length)
    (hnd : nd.parent = some p2)
    (hdep : ∃ pnd, arena.get? p2 = some pnd ∧ pnd.depth < nd.depth) :
    StInv ⟨arena ++ [nd], arena.length, p2, paths2⟩ := by
  refine ⟨?_, ?_, ?_, ?_⟩
  · intro i m p hm hp
    by_cases hi : i < arena.length
    · rw [List.get?_append hi] at hm
      obtain ⟨hplt, pnd, hpnd, hpd⟩ := hA i m p hm hp
      refine ⟨hplt, pnd, ?_, hpd⟩
      rw [List.get?_append (Nat.lt_trans hplt hi)]
      exact hpnd
    · have hlen : i < arena.length + 1 := by
        obtain ⟨hl, _⟩ := List.get?_eq_some.mp hm
        simpa using hl
      have hi2 : i = arena.length := by omega
      subst hi2
      rw [List.get?_concat_length] at hm
      have hm2 : nd = m := Option.some.inj hm
      rw [← hm2] at hp
      rw [hnd] at hp
      have hpeq : p2 = p := Option.some.inj hp
      subst hpeq
      obtain ⟨pnd, hpnd, hpd⟩ := hdep
      refine ⟨hp2, pnd, ?_, by rw [← hm2]; exact hpd⟩
      rw [List.get?_append hp2]
      exact hpnd
  · intro i m hm hnone
    by_cases hi : i < arena.length
    · rw [List.get?_append hi] at hm
      exact hR i m hm hnone
    · have hlen : i < arena.length + 1 := by
        obtain ⟨hl, _⟩ := List.get?_eq_some.mp hm
        simpa using hl
      have hi2 : i = arena.length := by omega
      subst hi2
      rw [List.get?_concat_length] at hm
      have hm2 : nd = m := Option.some.inj hm
      rw [← hm2] at hnone
      rw [hnd] at hnone
      exact absurd hnone (by simp)
  · show p2 < (arena ++ [nd]).length
    rw [List.length_append]
    omega
  · refine ⟨nd, ?_, Or.inl hnd⟩
    show (arena ++ [nd]).get? arena.length = some nd
    exact List.get?_concat_length arena nd

theorem attachNode_inv (st : ParseState) (d : Nat) (name : List Char)
    (meta : Option (List Char × ℤ × ℤ × ℤ)) (hst : StInv st) (hd : 1 ≤ d) :
    StInv (attachNode st d name meta) := by
  obtain ⟨hA, hR, hparlt, cnd, hcnd, hor⟩ := hst
  have hcur_lt : st.cur < st.arena.length := by
    obtain ⟨hl, _⟩ := List.get?_eq_some.mp hcnd
    exact hl
  have hfacts : ∀ p2 : Nat,
      p2 = (if d > cnd.depth then st.cur
        else if d < cnd.depth then walkUp st.arena (cnd.depth - d) st.par else st.par) →
      p2 < st.arena.length
        ∧ ∃ pnd, st.arena.get? p2 = some pnd ∧ pnd.depth < d := by
    intro p2 hp2
    by_cases h1 : d > cnd.depth
    · rw [if_pos h1] at hp2
      subst hp2
      exact ⟨hcur_lt, cnd, hcnd, h1⟩
    · rw [if_neg h1] at hp2
      by_cases h2 : d < cnd.depth
      · rw [if_pos h2] at hp2
        subst hp2
        have hparent : cnd.parent = some st.par := by
          rcases hor with hh | hh
          · exact hh
          · exact absurd h2 (by omega)
        obtain ⟨hplt2, parnd, hparnd, hpard⟩ := hA st.cur cnd st.par hcnd hparent
        obtain ⟨wnd, hwnd, hwor⟩ :=
          walkUp_depth st.arena hA hR (cnd.depth - d) st.par parnd hparnd
        refine ⟨walkUp_valid st.arena hA (cnd.depth - d) st.par hparlt, wnd, hwnd, ?_⟩
        rcases hwor with hw1 | hw2
        · omega
        · omega
      · rw [if_neg h2] at hp2
        subst hp2
        have hparent : cnd.parent = some st.par := by
          rcases hor with hh | hh
          · exact hh
          · exact absurd hh (by omega)
        obtain ⟨hplt2, parnd, hparnd, hpard⟩ := hA st.cur cnd st.par hcnd hparent
        exact ⟨hparlt, parnd, hparnd, by omega⟩
  rcases meta with _ | ⟨key, ds, mn, mx⟩
  · unfold attachNode
    rw [hcnd]
    dsimp only
    obtain ⟨hlt2, hdep2⟩ := hfacts _ rfl
    exact stInv_append st.arena _ _ hA hR _ hlt2 rfl hdep2
  · unfold attachNode
    rw [hcnd]
    dsimp only
    obtain ⟨hlt2, hdep2⟩ := hfacts _ rfl
    exact stInv_append st.arena _ _ hA hR _ hlt2 rfl hdep2

theorem processLine_inv (st : ParseState) (line : List Char) (h : StInv st) :
    StInv (processLine st line) := by
  unfold processLine
  by_cases h1 : isHeaderOrBlank line = true
  · rw [if_pos h1]
    exact h
  · rw [if_neg h1]
    rcases hsb : splitBranch line with _ | ⟨pre, rem⟩
    · exact h
    · dsimp only
      rcases hli : lineInfo rem with _ | ⟨meta, rawName⟩
      · exact h
      · exact attachNode_inv st (lineDepth pre) (pyStrip rawName) meta h (lineDepth_pos pre)

theorem processLineE_some (st stM : ParseState) (line : List Char)
    (h : processLineE st line = some stM) : stM = processLine st line := by
  unfold processLineE at h
  by_cases hr : lineRaises line = true
  · rw [if_pos hr] at h
    exact absurd h (by simp)
  · rw [if_neg hr] at h
    exact (Option.some.inj h).symm

theorem runFold_inv (ls : List (List Char)) :
    ∀ st st2, StInv st → runFold st ls = some st2 → StInv st2 := by
  induction ls with
  | nil =>
    intro st st2 h heq
    simp only [runFold] at heq
    rw [← Option.some.inj heq]
    exact h
  | cons l rest ih =>
    intro st st2 h heq
    simp only [runFold] at heq
    cases hpe : processLineE st l with
    | none =>
      rw [hpe] at heq
      simp at heq
    | some stM =>
      rw [hpe] at heq
      dsimp only at heq
      rw [processLineE_some st stM l hpe] at heq
      exact ih _ _ (processLine_inv st l h) heq

theorem attachNode_paths (st : ParseState) (d : Nat) (name : List Char)
    (meta : Option (List Char × ℤ × ℤ × ℤ)) :
    ∃ ex, (attachNode st d name meta).paths = st.paths ++ ex :=
  ⟨_, rfl⟩

theorem processLine_paths (st : ParseState) (line : List Char) :
    ∃ ex, (processLine st line).paths = st.paths ++ ex := by
  unfold processLine
  by_cases h1 : isHeaderOrBlank line = true
  · rw [if_pos h1]
    exact ⟨[], (List.append_nil _).symm⟩
  · rw [if_neg h1]
    rcases hsb : splitBranch line with _ | ⟨pre, rem⟩
    · exact ⟨[], (List.append_nil _).symm⟩
    · dsimp only
      rcases hli : lineInfo rem with _ | ⟨meta, rawName⟩
      · exact ⟨[], (List.append_nil _).symm⟩
      · exact attachNode_paths st _ _ _

theorem runFold_paths (ls : List (List Char)) :
    ∀ st st2, runFold st ls = some st2 → ∃ ex, st2.paths = st.paths ++ ex := by
  induction ls with
  | nil =>
    intro st st2 heq
    simp only [runFold] at heq
    exact ⟨[], by rw [← Option.some.inj heq, List.append_nil]⟩
  | cons l rest ih =>
    intro st st2 heq
    simp only [runFold] at heq
    cases hpe : processLineE st l with
    | none =>
      rw [hpe] at heq
      simp at heq
    | some stM =>
      rw [hpe] at heq
      dsimp only at heq
      rw [processLineE_some st stM l hpe] at heq
      obtain ⟨e1, h1⟩ := processLine_paths st l
      obtain ⟨e2, h2⟩ := ih _ _ heq
      exact ⟨e1 ++ e2, by rw [h2, h1, List.append_assoc]⟩

theorem stInv_init (seg : List Char) (ent : FlatEntry) :
    StInv ⟨[⟨seg, none, none, none, none, none, 0⟩], 0, 0, [ent]⟩ := by
  refine ⟨?_, ?_, by simp, ?_⟩
  · intro i nd p hm hp
    cases i with
    | zero =>
      simp only [List.get?] at hm
      have hnd := Option.some.inj hm
      rw [← hnd] at hp
      simp at hp
    | succ j =>
      simp at hm
  · intro i nd hm hnone
    cases i with
    | zero =>
      simp only [List.get?] at hm
      have hnd := Option.some.inj hm
      rw [← hnd]
    | succ j =>
      simp at hm
  · exact ⟨⟨seg, none, none, none, none, none, 0⟩, rfl, Or.inr rfl⟩

theorem runParse_inv (rl : List Char) (rest : List (List Char))
    (arena : List TreeNode) (entries : List FlatEntry)
    (h : runParse rl rest = some (arena, entries)) :
    ArenaInv arena ∧ ∃ seg ex, entries = (seg, false, none, none) :: ex := by
  unfold runParse at h
  dsimp only at h
  cases hrf : runFold ⟨[⟨(pyStrip rl).dropWhile isGlyphOrSpace,
      none, none, none, none, none, 0⟩], 0, 0,
      [((pyStrip rl).dropWhile isGlyphOrSpace, false, none, none)]⟩ rest with
  | none =>
    rw [hrf] at h
    simp at h
  | some stF =>
    rw [hrf] at h
    dsimp only at h
    have hpair := Option.some.inj h
    have harena : stF.arena = arena := congrArg Prod.fst hpair
    have hpaths : stF.paths = entries := congrArg Prod.snd hpair
    have h0 := stInv_init ((pyStrip rl).dropWhile isGlyphOrSpace)
      ((pyStrip rl).dropWhile isGlyphOrSpace, false, none, none)
    have hinv := runFold_inv rest _ _ h0 hrf
    constructor
    · rw [← harena]
      exact hinv.1
    · obtain ⟨ex, hex⟩ := runFold_paths rest _ _ hrf
      refine ⟨(pyStrip rl).dropWhile isGlyphOrSpace, ex, ?_⟩
      rw [← hpaths, hex]
      rfl

theorem parse_eq_runParse (body : List Char) (arena : List TreeNode)
    (entries : List FlatEntry) (h : parseTreeOutput body = some (arena, entries)) :
    ∃ rl rest, runParse rl rest = some (arena, entries) := by
  unfold parseTreeOutput at h
  rcases hp : pySplitlines body with _ | ⟨l0, rest⟩
  · rw [hp] at h
    exact absurd h (by simp)
  · rw [hp] at h
    dsimp only at h
    rcases hf : (l0 :: rest).find? (fun l => !isHeaderOrBlank l) with _ | rl
    · rw [hf] at h
      exact ⟨l0, rest, h⟩
    · rw [hf] at h
      exact ⟨rl, rest, h⟩

/--
Claim C2: in every successful parse, every node holding a parent reference
points at a node of strictly smaller depth, and the full path of the node is
the full path of its parent joined with the separator and its own segment.
-/
theorem c2_depth_and_path (body : List Char) (arena : List TreeNode)
    (entries : List FlatEntry) (h : parseTreeOutput body = some (arena, entries)) :
    ∀ i nd p, arena.get? i = some nd → nd.parent = some p →
      ∃ pnd, arena.get? p = some pnd ∧ pnd.depth < nd.depth
        ∧ fullPath arena i = fullPath arena p ++ '/' :: nd.path := by
  obtain ⟨rl, rest, hrp⟩ := parse_eq_runParse body arena entries h
  have hA := (runParse_inv rl rest arena entries hrp).1
  intro i nd p hm hp
  obtain ⟨hplt, pnd, hpnd, hpd⟩ := hA i nd p hm hp
  exact ⟨pnd, hpnd, hpd, fullPath_parent _ i p nd hm hp hplt⟩

/--
Witness for claim C2 on the parsed example tree: the file node at index one has
the root as parent, with smaller depth, and its full path is the root path
joined with its segment.
-/
theorem c2_depth_and_path_witness :
    ∃ pnd, exTreeArena.get? 0 = some pnd ∧ pnd.depth < 1
      ∧ fullPath exTreeArena 1
          = fullPath exTreeArena 0 ++ '/' :: (("README.txt").toList) :=
  c2_depth_and_path exTreeBody exTreeArena exTreeEntries (by decide) 1
    ⟨("README.txt").toList, some 1536, some 1024, some 2560, some ['1'], some 0, 1⟩ 0
    (by decide) rfl

/--
Claim C6: the three line example parses to exactly three flat entries in order,
the root directory first, then the two files with their keys and size bands;
and in every successful parse the first emitted entry is the root with the file
flag false and no key or size.
-/
theorem c6_example_parse :
    parseTreeOutput exTreeBody = some (exTreeArena, exTreeEntries)
    ∧ ∀ body arena entries, parseTreeOutput body = some (arena, entries) →
        ∃ seg ex, entries = (seg, false, none, none) :: ex := by
  constructor
  · decide
  · intro body arena entries h
    obtain ⟨rl, rest, hrp⟩ := parse_eq_runParse body arena entries h
    exact (runParse_inv rl rest arena entries hrp).2

/--
Witness for claim C6: the universal root first property instantiated at the
example body.
-/
theorem c6_example_parse_witness :
    ∃ seg ex, exTreeEntries = (seg, false, none, none) :: ex :=
  c6_example_parse.2 exTreeBody exTreeArena exTreeEntries c6_example_parse.1

/-
  Splitting on a separator and joining with it are mutually inverse, and the
  Python strip is idempotent; both facts drive the idempotence analysis of the
  response cleaning.
-/

theorem joinSep_cons_ne (sep : Char) (l : List Char) (r : List (List Char))
    (hr : r ≠ []) : joinSep sep (l :: r) = l ++ sep :: joinSep sep r := by
  cases r with
  | nil => exact absurd rfl hr
  | cons a b => rfl

theorem joinSep_splitOnChar (sep : Char) (s : List Char) :
    joinSep sep (splitOnChar sep s) = s := by
  induction s with
  | nil => rfl
  | cons c rest ih =>
    simp only [splitOnChar]
    by_cases h : c = sep
    · subst h
      rw [if_pos rfl, joinSep_cons_ne _ _ _ (splitOnChar_ne_nil c rest), ih]
      rfl
    · rw [if_neg h]
      cases hr : splitOnChar sep rest with
      | nil => exact absurd hr (splitOnChar_ne_nil sep rest)
      | cons a b =>
        rw [hr] at ih
        cases b with
        | nil =>
          simp only [joinSep]
          simp only [joinSep] at ih
          rw [ih]
        | cons a2 b2 =>
          simp only [joinSep]
          simp only [joinSep] at ih
          rw [List.cons_append, ih]

theorem dropWhile_idem (p : Char → Bool) (s : List Char) :
    List.dropWhile p (List.dropWhile p s) = List.dropWhile p s := by
  induction s with
  | nil => rfl
  | cons c rest ih =>
    by_cases h : p c = true
    · rw [List.dropWhile_cons, if_pos h]
      exact ih
    · rw [List.dropWhile_cons, if_neg h, List.dropWhile_cons, if_neg h]

theorem dropTrailWhile_cons_neg (p : Char → Bool) (c : Char) (rest : List Char)
    (h : ¬ p c = true) : dropTrailWhile p (c :: rest) = c :: dropTrailWhile p rest := by
  unfold dropTrailWhile
  rw [List.reverse_cons, List.dropWhile_append]
  by_cases he : (List.dropWhile p rest.reverse).isEmpty = true
  · rw [if_pos he]
    have hnil : List.dropWhile p rest.reverse = [] := List.isEmpty_iff.mp he
    rw [hnil, List.dropWhile_cons_of_neg h]
    simp
  · rw [if_neg he, List.reverse_append]
    simp

theorem dropWhile_dropTrailWhile (p : Char → Bool) (l : List Char)
    (hl : List.dropWhile p l = l) :
    List.dropWhile p (dropTrailWhile p l) = dropTrailWhile p l := by
  cases l with
  | nil => rfl
  | cons c rest =>
    have hc : ¬ p c = true := by
      intro hcc
      rw [List.dropWhile_cons, if_pos hcc] at hl
      have hlen := congrArg List.length hl
      have hle := (List.dropWhile_suffix p (l := rest)).length_le
      simp at hlen
      omega
    rw [dropTrailWhile_cons_neg p c rest hc, List.dropWhile_cons_of_neg hc]

theorem dropTrailWhile_idem (p : Char → Bool) (s : List Char) :
    dropTrailWhile p (dropTrailWhile p s) = dropTrailWhile p s := by
  unfold dropTrailWhile
  rw [List.reverse_reverse, dropWhile_idem]

theorem pyStrip_idem (s : List Char) : pyStrip (pyStrip s) = pyStrip s := by
  unfold pyStrip
  rw [dropWhile_dropTrailWhile isPySpace (List.dropWhile isPySpace s)
    (dropWhile_idem _ _), dropTrailWhile_idem]

/-
  Substring facts used to show that the cleaned output holds no notice marker
  when the surviving lines hold none.
-/

theorem pyStartsWith_nil_true (a : List Char) : pyStartsWith a [] = true := by
  cases a <;> rfl

theorem strContains_cons (c : Char) (s pat : List Char) :
    strContains (c :: s) pat = (pyStartsWith (c :: s) pat || strContains s pat) := by
  simp [strContains, List.tails_cons]

theorem pyStartsWith_extend (b : List Char) :
    ∀ (p a : List Char), pyStartsWith a p = true → pyStartsWith (a ++ b) p = true := by
  intro p
  induction p with
  | nil =>
    intro a h
    exact pyStartsWith_nil_true _
  | cons q ps ih =>
    intro a h
    cases a with
    | nil => simp [pyStartsWith] at h
    | cons x a1 =>
      simp only [pyStartsWith, Bool.and_eq_true] at h
      obtain ⟨h1, h2⟩ := h
      simp only [List.cons_append, pyStartsWith, Bool.and_eq_true]
      exact ⟨h1, ih a1 h2⟩

theorem strContains_append_left (a b pat : List Char)
    (h : strContains a pat = true) : strContains (a ++ b) pat = true := by
  induction a with
  | nil =>
    cases pat with
    | nil =>
      cases b with
      | nil => exact h
      | cons x bs =>
        rw [List.nil_append, strContains_cons]
        simp [pyStartsWith_nil_true]
    | cons p ps => exact Bool.noConfusion h
  | cons x a1 ih =>
    rw [strContains_cons] at h
    rw [List.cons_append, strContains_cons]
    cases hsw : pyStartsWith (x :: a1) pat with
    | true =>
      have h4 := pyStartsWith_extend b pat (x :: a1) hsw
      rw [List.cons_append] at h4
      rw [h4]
      simp
    | false =>
      rw [hsw] at h
      simp at h
      rw [ih h]
      simp

theorem strContains_append_right (a b pat : List Char)
    (h : strContains b pat = true) : strContains (a ++ b) pat = true := by
  induction a with
  | nil => exact h
  | cons x a1 ih =>
    rw [List.cons_append, strContains_cons, ih]
    simp

theorem pyStartsWith_across (c : Char) :
    ∀ (pat a b : List Char), pyStartsWith (a ++ c :: b) pat = true →
      c ∈ pat ∨ pyStartsWith a pat = true := by
  intro pat
  induction pat with
  | nil =>
    intro a b h
    exact Or.inr (pyStartsWith_nil_true a)
  | cons p ps ih =>
    intro a b h
    cases a with
    | nil =>
      simp only [List.nil_append, pyStartsWith, Bool.and_eq_true] at h
      have hcp := h.1
      simp at hcp
      exact Or.inl (by rw [hcp]; exact List.mem_cons_self p ps)
    | cons x a1 =>
      simp only [List.cons_append, pyStartsWith, Bool.and_eq_true] at h
      obtain ⟨hxp, hrest⟩ := h
      rcases ih a1 b hrest with hc2 | hs2
      · exact Or.inl (List.mem_cons_of_mem p hc2)
      · refine Or.inr ?_
        simp only [pyStartsWith, Bool.and_eq_true]
        exact ⟨hxp, hs2⟩

theorem strContains_append_sep (c : Char) (pat : List Char) (hne : pat ≠ [])
    (hc : c ∉ pat) :
    ∀ (a b : List Char), strContains a pat = false → strContains b pat = false →
      strContains (a ++ c :: b) pat = false := by
  intro a
  induction a with
  | nil =>
    intro b ha hb
    rw [List.nil_append, strContains_cons, hb]
    cases pat with
    | nil => exact absurd rfl hne
    | cons p ps =>
      have hcp : ¬ (c = p) := fun hh => hc (by rw [hh]; exact List.mem_cons_self p ps)
      simp [pyStartsWith, hcp]
  | cons x a1 ih =>
    intro b ha hb
    rw [strContains_cons] at ha
    obtain ⟨h3, h1⟩ := Bool.or_eq_false_iff.mp ha
    rw [List.cons_append, strContains_cons, ih b h1 hb]
    cases hstart : pyStartsWith (x :: (a1 ++ c :: b)) pat with
    | false => simp [hstart]
    | true =>
      have hstart2 : pyStartsWith ((x :: a1) ++ c :: b) pat = true := by
        rw [List.cons_append]
        exact hstart
      rcases pyStartsWith_across c pat (x :: a1) b hstart2 with hc2 | hs2
      · exact absurd hc2 hc
      · rw [hs2] at h3
        exact Bool.noConfusion h3

theorem strContains_nil_false (pat : List Char) (hne : pat ≠ []) :
    strContains [] pat = false := by
  cases pat with
  | nil => exact absurd rfl hne
  | cons p ps => rfl

theorem strContains_joinSep (c : Char) (pat : List Char) (hne : pat ≠ [])
    (hc : c ∉ pat) :
    ∀ ls : List (List Char), (∀ l ∈ ls, strContains l pat = false) →
      strContains (joinSep c ls) pat = false := by
  intro ls
  induction ls with
  | nil =>
    intro _
    exact strContains_nil_false pat hne
  | cons l rest ih =>
    intro h
    cases rest with
    | nil => exact h l (by simp)
    | cons l2 r2 =>
      have hb : strContains (joinSep c (l2 :: r2)) pat = false :=
        ih (fun x hx => h x (by simp [hx]))
      exact strContains_append_sep c pat hne hc l (joinSep c (l2 :: r2))
        (h l (by simp)) hb

theorem strContains_dropWhile_false (p : Char → Bool) (s pat : List Char)
    (h : strContains s pat = false) :
    strContains (List.dropWhile p s) pat = false := by
  cases hc : strContains (List.dropWhile p s) pat with
  | false => rfl
  | true =>
    have h2 := strContains_append_right (List.takeWhile p s) _ pat hc
    rw [List.takeWhile_append_dropWhile] at h2
    rw [h2] at h
    exact Bool.noConfusion h

theorem strContains_dropTrail_false (p : Char → Bool) (s pat : List Char)
    (h : strContains s pat = false) :
    strContains (dropTrailWhile p s) pat = false := by
  cases hc : strContains (dropTrailWhile p s) pat with
  | false => rfl
  | true =>
    have hs : dropTrailWhile p s ++ (s.reverse.takeWhile p).reverse = s := by
      unfold dropTrailWhile
      rw [← List.reverse_append, List.takeWhile_append_dropWhile, List.reverse_reverse]
    have h2 := strContains_append_left _ (s.reverse.takeWhile p).reverse pat hc
    rw [hs] at h2
    rw [h2] at h
    exact Bool.noConfusion h

theorem strContains_pyStrip_false (s pat : List Char)
    (h : strContains s pat = false) : strContains (pyStrip s) pat = false :=
  strContains_dropTrail_false _ _ _ (strContains_dropWhile_false _ _ _ h)

theorem findNotice_none :
    ∀ (ls : List (List Char)), (∀ l ∈ ls, noticeOpen l = false) →
      ∀ i, findNotice ls i none = none := by
  intro ls
  induction ls with
  | nil =>
    intro _ i
    rfl
  | cons l rest ih =>
    intro h i
    have hl : noticeOpen l = false := h l (by simp)
    simp only [findNotice, hl]
    simp only [Bool.false_eq_true, if_false]
    exact ih (fun x hx => h x (by simp [hx])) (i + 1)

theorem noticeRewrite_empty (ls : List (List Char)) (s e : Nat)
    (hf : findNotice ls 0 none = some (s, e))
    (hws : pyStrip (joinSep '\n' ((ls.take e).drop (s + 1))) = []) :
    noticeRewrite ls = ls.take s ++ ls.drop (e + 2) := by
  unfold noticeRewrite
  rw [hf]
  dsimp only
  rw [if_pos hws]

/--
Claim C7, amended.  When the boilerplate stripped lines hold a notice block with
a whitespace only interior, the rewrite removes the opening delimiter, the
interior, the closing delimiter and the single following line; and the cleaned
output holds no notice marker text, provided none of the surviving input lines
itself holds that marker.
-/
theorem c7_notice_removal (content : List Char) (s e : Nat)
    (hf : findNotice (boilerStrip (splitOnChar '\n' content)) 0 none = some (s, e))
    (hws : pyStrip (joinSep '\n'
        (((boilerStrip (splitOnChar '\n' content)).take e).drop (s + 1))) = []) :
    noticeRewrite (boilerStrip (splitOnChar '\n' content))
        = (boilerStrip (splitOnChar '\n' content)).take s
          ++ (boilerStrip (splitOnChar '\n' content)).drop (e + 2)
    ∧ ((∀ l ∈ (boilerStrip (splitOnChar '\n' content)).take s
            ++ (boilerStrip (splitOnChar '\n' content)).drop (e + 2),
          strContains l litNoticeTag = false) →
        strContains (cleanContent content) litNoticeTag = false) := by
  constructor
  · exact noticeRewrite_empty _ s e hf hws
  · intro hall
    unfold cleanContent
    rw [noticeRewrite_empty _ s e hf hws]
    have hjoin := strContains_joinSep '\n' litNoticeTag (by decide) (by decide)
      ((boilerStrip (splitOnChar '\n' content)).take s
        ++ (boilerStrip (splitOnChar '\n' content)).drop (e + 2)) hall
    exact strContains_pyStrip_false _ _ hjoin

/--
Witness for claim C7: the example body with an empty notice block collapses to
the content after the block and the cleaned output holds no notice marker.
-/
theorem c7_notice_removal_witness :
    noticeRewrite (boilerStrip (splitOnChar '\n' exNoticeEmptyBody))
        = (boilerStrip (splitOnChar '\n' exNoticeEmptyBody)).take 0
          ++ (boilerStrip (splitOnChar '\n' exNoticeEmptyBody)).drop 4
    ∧ strContains (cleanContent exNoticeEmptyBody) litNoticeTag = false := by
  have h := c7_notice_removal exNoticeEmptyBody 0 2 (by decide) (by decide)
  exact ⟨h.1, h.2 (by decide)⟩

/--
Counterexample for claim C7 as stated: a body whose empty notice block is
removed but whose remaining content itself holds the text Notice followed by a
colon; the cleaned output then still holds that text, refuting the unconditional
reading of the claim.
-/
theorem c7_notice_removal_counterexample :
    findNotice (boilerStrip (splitOnChar '\n' exNoticeKeepBody)) 0 none = some (0, 2)
    ∧ pyStrip (joinSep '\n'
        (((boilerStrip (splitOnChar '\n' exNoticeKeepBody)).take 2).drop 1)) = []
    ∧ strContains (cleanContent exNoticeKeepBody) litNoticeTag = true := by decide

/--
Claim C8, amended.  The text cleaning of the response preprocessor is idempotent
on every body whose cleaned output does not again expose the three line
boilerplate prefix and holds no notice opening line; re-exposure of either
pattern makes a second pass strip further.
-/
theorem c8_clean_idempotent (content : List Char)
    (hboiler : boilerTriple (splitOnChar '\n' (cleanContent content)) = false)
    (hnotice : ∀ l ∈ splitOnChar '\n' (cleanContent content), noticeOpen l = false) :
    cleanContent (cleanContent content) = cleanContent content := by
  have h1 : boilerStrip (splitOnChar '\n' (cleanContent content))
      = splitOnChar '\n' (cleanContent content) := by
    unfold boilerStrip
    rw [hboiler]
    simp
  have h2 : noticeRewrite (splitOnChar '\n' (cleanContent content))
      = splitOnChar '\n' (cleanContent content) := by
    unfold noticeRewrite
    rw [findNotice_none _ hnotice 0]
  calc cleanContent (cleanContent content)
      = pyStrip (joinSep '\n' (noticeRewrite (boilerStrip
          (splitOnChar '\n' (cleanContent content))))) := rfl
    _ = pyStrip (cleanContent content) := by
        rw [h1, h2, joinSep_splitOnChar]
    _ = cleanContent content := by
        unfold cleanContent
        exact pyStrip_idem _

/--
Witness for claim C8: a plain one word body is a fixed point of the cleaning.
-/
theorem c8_clean_idempotent_witness :
    cleanContent (cleanContent (("hello").toList)) = cleanContent (("hello").toList) :=
  c8_clean_idempotent (("hello").toList) (by decide) (by decide)

/--
Counterexample for claim C8 as stated: a body carrying the boilerplate triple
twice is stripped of only one copy per pass, so applying the cleaning twice
differs from applying it once.
-/
theorem c8_clean_idempotent_counterexample :
    cleanContent (cleanContent exDoubleBoilerBody) ≠ cleanContent exDoubleBoilerBody := by
  decide

/-
  Association list lemmas for the directory model.
-/

theorem fsLookup_fsInsert_self (fs : FileSys) (n : List Char) (c : List Nat) :
    fsLookup (fsInsert fs n c) n = some c := by
  induction fs with
  | nil => simp [fsInsert, fsLookup]
  | cons ent rest ih =>
    obtain ⟨k, v⟩ := ent
    simp only [fsInsert]
    by_cases h : k = n
    · rw [if_pos h]
      simp [fsLookup]
    · rw [if_neg h]
      simp only [fsLookup]
      rw [if_neg h]
      exact ih

theorem fsLookup_fsInsert_other (fs : FileSys) (n : List Char) (c : List Nat)
    (m : List Char) (h : m ≠ n) :
    fsLookup (fsInsert fs n c) m = fsLookup fs m := by
  induction fs with
  | nil =>
    simp only [fsInsert, fsLookup]
    rw [if_neg (fun hh => h hh.symm)]
  | cons ent rest ih =>
    obtain ⟨k, v⟩ := ent
    simp only [fsInsert]
    by_cases hk : k = n
    · rw [if_pos hk]
      simp only [fsLookup]
      rw [if_neg (fun hh => h hh.symm), if_neg (by rw [hk]; exact fun hh => h hh.symm)]
    · rw [if_neg hk]
      simp only [fsLookup]
      by_cases hkm : k = m
      · rw [if_pos hkm, if_pos hkm]
      · rw [if_neg hkm, if_neg hkm]
        exact ih

theorem fsLookup_filter_self (fs : FileSys) (n : List Char) :
    fsLookup (fs.filter (fun ent => ent.1 ≠ n)) n = none := by
  induction fs with
  | nil => rfl
  | cons ent rest ih =>
    obtain ⟨k, v⟩ := ent
    simp only [List.filter_cons]
    by_cases h : k = n
    · have hp : (decide ((k, v).1 ≠ n)) = false := by simp [h]
      rw [hp]
      simp only [Bool.false_eq_true, if_false]
      exact ih
    · have hp : (decide ((k, v).1 ≠ n)) = true := by simp [h]
      rw [hp]
      simp only [if_true]
      simp only [fsLookup]
      rw [if_neg h]
      exact ih

theorem fsLookup_filter_other (fs : FileSys) (n m : List Char) (h : m ≠ n) :
    fsLookup (fs.filter (fun ent => ent.1 ≠ n)) m = fsLookup fs m := by
  induction fs with
  | nil => rfl
  | cons ent rest ih =>
    obtain ⟨k, v⟩ := ent
    simp only [List.filter_cons]
    by_cases hk : k = n
    · have hp : (decide ((k, v).1 ≠ n)) = false := by simp [hk]
      rw [hp]
      simp only [Bool.false_eq_true, if_false]
      rw [ih]
      simp only [fsLookup]
      rw [if_neg (by rw [hk]; exact fun hh => h hh.symm)]
    · have hp : (decide ((k, v).1 ≠ n)) = true := by simp [hk]
      rw [hp]
      simp only [if_true, fsLookup]
      by_cases hkm : k = m
      · rw [if_pos hkm, if_pos hkm]
      · rw [if_neg hkm, if_neg hkm]
        exact ih

theorem fsLookup_isSome_of_mem (fs : FileSys) (n : List Char)
    (h : n ∈ fs.map Prod.fst) : (fsLookup fs n).isSome = true := by
  induction fs with
  | nil => simp at h
  | cons ent rest ih =>
    obtain ⟨k, v⟩ := ent
    simp only [List.map_cons, List.mem_cons] at h
    simp only [fsLookup]
    by_cases hk : k = n
    · rw [if_pos hk]
      rfl
    · rw [if_neg hk]
      rcases h with h1 | h2
      · exact absurd h1.symm hk
      · exact ih h2

/-
  Character facts: a digit is not whitespace and not a sign.
-/

theorem isDigitCh_not_space (c : Char) (h : isDigitCh c = true) :
    isPySpace c = false := by
  rw [isDigitCh, Bool.and_eq_true] at h
  have h1 := of_decide_eq_true h.1
  have hne : ∀ x : Char, x < '0' → ¬ (c = x) := by
    intro x hx hh
    rw [hh] at h1
    exact absurd h1 (not_le.mpr hx)
  simp [isPySpace, hne ' ' (by decide), hne '\t' (by decide), hne '\n' (by decide),
    hne '\r' (by decide), hne '\x0b' (by decide), hne '\x0c' (by decide)]

theorem isDigitCh_ne_sign (c : Char) (h : isDigitCh c = true) :
    c ≠ '+' ∧ c ≠ '-' := by
  rw [isDigitCh, Bool.and_eq_true] at h
  have h1 := of_decide_eq_true h.1
  constructor <;> intro hh <;> rw [hh] at h1 <;> exact absurd h1 (by decide)

theorem dropWhile_eq_self_of_none (p : Char → Bool) (s : List Char)
    (h : ∀ c ∈ s, p c = false) : List.dropWhile p s = s := by
  cases s with
  | nil => rfl
  | cons c rest =>
    exact List.dropWhile_cons_of_neg (by simp [h c (List.mem_cons_self c rest)])

theorem pyStrip_eq_self_of_no_space (s : List Char)
    (h : ∀ c ∈ s, isPySpace c = false) : pyStrip s = s := by
  unfold pyStrip dropTrailWhile
  rw [dropWhile_eq_self_of_none _ _ h,
    dropWhile_eq_self_of_none _ _ (fun c hc => h c (List.mem_reverse.mp hc)),
    List.reverse_reverse]

/-
  Decomposition of a part file name through the rightmost split.
-/

theorem pyStartsWith_append_self (p x : List Char) :
    pyStartsWith (p ++ x) p = true := by
  induction p with
  | nil => exact pyStartsWith_nil_true x
  | cons c ps ih =>
    simp only [List.cons_append, pyStartsWith, Bool.and_eq_true]
    exact ⟨by simp, ih⟩

theorem pyStartsWith_decomp : ∀ (p s : List Char), pyStartsWith s p = true →
    s = p ++ s.drop p.length := by
  intro p
  induction p with
  | nil =>
    intro s h
    simp
  | cons c ps ih =>
    intro s h
    cases s with
    | nil => exact Bool.noConfusion h
    | cons x rest =>
      simp only [pyStartsWith, Bool.and_eq_true] at h
      obtain ⟨h1, h2⟩ := h
      have h1b : x = c := of_decide_eq_true h1
      subst h1b
      simp only [List.cons_append, List.length_cons, List.drop_succ_cons]
      rw [← ih rest h2]

theorem rsplitPart_decomp : ∀ (f pre suf : List Char),
    rsplitPart f = some (pre, suf) → f = pre ++ litPartTag ++ suf := by
  intro f
  induction f with
  | nil =>
    intro pre suf h
    exact Option.noConfusion h
  | cons c rest ih =>
    intro pre suf h
    simp only [rsplitPart] at h
    cases hr : rsplitPart rest with
    | some pr =>
      rw [hr] at h
      obtain ⟨p0, s0⟩ := pr
      dsimp only at h
      injection h with h3
      injection h3 with h4 h5
      rw [← h4, ← h5, List.cons_append]
      rw [ih p0 s0 hr]
      simp [List.append_assoc]
    | none =>
      rw [hr] at h
      dsimp only at h
      by_cases hs : pyStartsWith (c :: rest) litPartTag = true
      · rw [if_pos hs] at h
        injection h with h3
        injection h3 with h4 h5
        rw [← h4, ← h5]
        have h6 := pyStartsWith_decomp litPartTag (c :: rest) hs
        simpa using h6
      · rw [if_neg hs] at h
        exact Option.noConfusion h

/-
  Membership and distinctness of the first occurrence deduplication.
-/

theorem dedupFirstAux_congr : ∀ (n m : Nat) (l : List (List Char)),
    l.length ≤ n → l.length ≤ m → dedupFirstAux n l = dedupFirstAux m l := by
  intro n
  induction n with
  | zero =>
    intro m l hn _
    have hnil : l = [] := List.length_eq_zero.mp (Nat.le_zero.mp hn)
    subst hnil
    cases m <;> rfl
  | succ n2 ih =>
    intro m l hn hm
    cases l with
    | nil => cases m <;> rfl
    | cons x xs =>
      cases m with
      | zero =>
        simp only [List.length_cons] at hm
        omega
      | succ m2 =>
        simp only [dedupFirstAux]
        have hfl := List.length_filter_le (fun y => decide (y ≠ x)) xs
        simp only [List.length_cons] at hn hm
        rw [ih m2 (xs.filter (fun y => y ≠ x)) (by omega) (by omega)]

theorem dedupFirst_cons (x : List Char) (xs : List (List Char)) :
    dedupFirst (x :: xs) = x :: dedupFirst (xs.filter (fun y => y ≠ x)) := by
  unfold dedupFirst
  simp only [List.length_cons, dedupFirstAux]
  rw [dedupFirstAux_congr xs.length (xs.filter (fun y => y ≠ x)).length
    (xs.filter (fun y => y ≠ x)) (List.length_filter_le _ _) le_rfl]

theorem dedupFirst_sub_mem : ∀ (n : Nat) (l : List (List Char)), l.length ≤ n →
    ∀ x, (x ∈ dedupFirst l ↔ x ∈ l) := by
  intro n
  induction n with
  | zero =>
    intro l hl x
    have hnil : l = [] := List.length_eq_zero.mp (Nat.le_zero.mp hl)
    subst hnil
    simp [dedupFirst, dedupFirstAux]
  | succ n2 ih =>
    intro l hl x
    cases l with
    | nil => simp [dedupFirst, dedupFirstAux]
    | cons a as =>
      have hlen : (as.filter (fun y => y ≠ a)).length ≤ n2 := by
        have h1 := List.length_filter_le (fun y => decide (y ≠ a)) as
        simp only [List.length_cons] at hl
        omega
      rw [dedupFirst_cons]
      constructor
      · intro h
        rcases List.mem_cons.mp h with h1 | h2
        · exact List.mem_cons.mpr (Or.inl h1)
        · have h3 := (ih _ hlen x).mp h2
          have h4 := List.mem_filter.mp h3
          exact List.mem_cons.mpr (Or.inr h4.1)
      · intro h
        rcases List.mem_cons.mp h with h1 | h2
        · exact List.mem_cons.mpr (Or.inl h1)
        · by_cases hxa : x = a
          · exact List.mem_cons.mpr (Or.inl hxa)
          · refine List.mem_cons.mpr (Or.inr ?_)
            exact (ih _ hlen x).mpr (List.mem_filter.mpr ⟨h2, by simp [hxa]⟩)

theorem dedupFirst_mem (l : List (List Char)) (x : List Char) :
    x ∈ dedupFirst l ↔ x ∈ l :=
  dedupFirst_sub_mem l.length l le_rfl x

theorem dedupFirst_sub_nodup : ∀ (n : Nat) (l : List (List Char)), l.length ≤ n →
    (dedupFirst l).Nodup := by
  intro n
  induction n with
  | zero =>
    intro l hl
    have hnil : l = [] := List.length_eq_zero.mp (Nat.le_zero.mp hl)
    subst hnil
    simp [dedupFirst, dedupFirstAux]
  | succ n2 ih =>
    intro l hl
    cases l with
    | nil => simp [dedupFirst, dedupFirstAux]
    | cons a as =>
      have hlen : (as.filter (fun y => y ≠ a)).length ≤ n2 := by
        have h1 := List.length_filter_le (fun y => decide (y ≠ a)) as
        simp only [List.length_cons] at hl
        omega
      rw [dedupFirst_cons]
      refine List.nodup_cons.mpr ⟨?_, ih _ hlen⟩
      intro hmem
      have h2 := (dedupFirst_mem _ a).mp hmem
      have h3 := List.mem_filter.mp h2
      simp at h3

theorem dedupFirst_nodup (l : List (List Char)) : (dedupFirst l).Nodup :=
  dedupFirst_sub_nodup l.length l le_rfl

/-
  The stable sort permutes its input.
-/

theorem insSorted_perm (key : List Char → ℤ) (x : List Char) :
    ∀ l, List.Perm (insSorted key x l) (x :: l) := by
  intro l
  induction l with
  | nil => exact List.Perm.refl _
  | cons y ys ih =>
    simp only [insSorted]
    by_cases h : key y < key x
    · rw [if_pos h]
      exact (List.Perm.cons y ih).trans (List.Perm.swap x y ys)
    · rw [if_neg h]

theorem stableSortByKey_perm (key : List Char → ℤ) :
    ∀ l, List.Perm (stableSortByKey key l) l := by
  intro l
  induction l with
  | nil => exact List.Perm.refl _
  | cons x xs ih =>
    simp only [stableSortByKey]
    exact (insSorted_perm key x _).trans (List.Perm.cons x ih)

/-
  Well formed part names yield numeric keys, so the sorted call succeeds.
-/

theorem wellFormedPart_elim (f : List Char) (h : wellFormedPart f = true) :
    ∃ st n, rsplitPart f = some (st, n) ∧ n ≠ [] ∧ n.all isDigitCh = true := by
  unfold wellFormedPart at h
  cases hr : rsplitPart f with
  | none =>
    rw [hr] at h
    exact Bool.noConfusion h
  | some pr =>
    obtain ⟨st, n⟩ := pr
    rw [hr] at h
    dsimp only at h
    rw [Bool.and_eq_true] at h
    refine ⟨st, n, rfl, ?_, h.2⟩
    intro hn
    rw [hn] at h
    simp at h

theorem pyIntParse_digits (n : List Char) (hne : n ≠ []) (hd : n.all isDigitCh = true) :
    pyIntParse n = some ((digitsVal n : ℤ)) := by
  have hall := List.all_eq_true.mp hd
  have hstrip : pyStrip n = n :=
    pyStrip_eq_self_of_no_space n
      (fun c hc => isDigitCh_not_space c (hall c hc))
  unfold pyIntParse
  rw [hstrip]
  cases n with
  | nil => exact absurd rfl hne
  | cons c rest =>
    have hc : isDigitCh c = true := hall c (by simp)
    obtain ⟨hplus, hminus⟩ := isDigitCh_ne_sign c hc
    split
    · rename_i ds heq
      injection heq with he1 he2
      exact absurd he1 hplus
    · rename_i ds heq
      injection heq with he1 he2
      exact absurd he1 hminus
    · rename_i hne1 hne2
      rw [if_pos (by simp [hd])]

theorem partNum_of_wf (f : List Char) (h : wellFormedPart f = true) :
    ∃ z, partNum f = some z := by
  obtain ⟨st, n, hr, hne, hd⟩ := wellFormedPart_elim f h
  unfold partNum
  rw [hr]
  exact ⟨_, pyIntParse_digits n hne hd⟩

theorem sortParts_of_wf (names : List (List Char))
    (h : ∀ f ∈ names, wellFormedPart f = true) :
    sortParts names = some (stableSortByKey (fun f => (partNum f).getD 0) names) := by
  have hall : names.all (fun f => (partNum f).isSome) = true := by
    rw [List.all_eq_true]
    intro f hf
    obtain ⟨z, hz⟩ := partNum_of_wf f (h f hf)
    rw [hz]
    rfl
  unfold sortParts
  rw [if_pos hall]

/-
  Reads over the original directory and the copy and delete loops of one group.
-/

theorem readAllFrom_isSome (fs : FileSys) :
    ∀ names, (∀ n ∈ names, (fsLookup fs n).isSome = true) →
      ∃ bs, readAllFrom fs names = some bs := by
  intro names
  induction names with
  | nil =>
    intro _
    exact ⟨[], rfl⟩
  | cons n ns ih =>
    intro h
    obtain ⟨c, hc⟩ := Option.isSome_iff_exists.mp (h n (by simp))
    obtain ⟨rest, hrest⟩ := ih (fun m hm => h m (by simp [hm]))
    refine ⟨c ++ rest, ?_⟩
    simp only [readAllFrom]
    rw [hc, hrest]

theorem readAllFrom_mem_isSome (fs : FileSys) :
    ∀ names bs, readAllFrom fs names = some bs →
      ∀ n ∈ names, ∃ c, fsLookup fs n = some c := by
  intro names
  induction names with
  | nil =>
    intro bs _ n hn
    simp at hn
  | cons m ns ih =>
    intro bs h n hn
    simp only [readAllFrom] at h
    cases hc : fsLookup fs m with
    | none =>
      rw [hc] at h
      exact Option.noConfusion h
    | some c =>
      rw [hc] at h
      cases hrest : readAllFrom fs ns with
      | none =>
        rw [hrest] at h
        exact Option.noConfusion h
      | some rest =>
        rcases List.mem_cons.mp hn with h1 | h2
        · exact ⟨c, by rw [h1]; exact hc⟩
        · exact ih rest hrest n h2

theorem mergeLoop_spec (fs0 : FileSys) (stem : List Char) :
    ∀ (names : List (List Char)) (fsk : FileSys) (acc bs : List Nat),
      fsLookup fsk stem = some acc →
      (∀ n ∈ names, n ≠ stem) →
      (∀ n ∈ names, fsLookup fsk n = fsLookup fs0 n) →
      readAllFrom fs0 names = some bs →
      ∃ fsk2, mergeLoop stem fsk names = some fsk2
        ∧ fsLookup fsk2 stem = some (acc ++ bs)
        ∧ (∀ m, m ≠ stem → fsLookup fsk2 m = fsLookup fsk m) := by
  intro names
  induction names with
  | nil =>
    intro fsk acc bs hacc _ _ hra
    simp only [readAllFrom] at hra
    have hbs : bs = [] := (Option.some.inj hra).symm
    subst hbs
    exact ⟨fsk, rfl, by rw [List.append_nil]; exact hacc, fun m _ => rfl⟩
  | cons n ns ih =>
    intro fsk acc bs hacc hne hsame hra
    simp only [readAllFrom] at hra
    cases hc : fsLookup fs0 n with
    | none =>
      rw [hc] at hra
      exact Option.noConfusion hra
    | some c =>
      rw [hc] at hra
      cases hrest : readAllFrom fs0 ns with
      | none =>
        rw [hrest] at hra
        exact Option.noConfusion hra
      | some rest =>
        rw [hrest] at hra
        have hbs : bs = c ++ rest := (Option.some.inj hra).symm
        subst hbs
        have hlk : fsLookup fsk n = some c := by
          rw [hsame n (by simp)]
          exact hc
        simp only [mergeLoop]
        rw [hlk]
        dsimp only
        have happ : fsAppendTo fsk stem c = fsInsert fsk stem (acc ++ c) := by
          unfold fsAppendTo
          rw [hacc]
        rw [happ]
        have hacc2 : fsLookup (fsInsert fsk stem (acc ++ c)) stem = some (acc ++ c) :=
          fsLookup_fsInsert_self _ _ _
        have hsame2 : ∀ m ∈ ns, fsLookup (fsInsert fsk stem (acc ++ c)) m
            = fsLookup fs0 m := by
          intro m hm
          rw [fsLookup_fsInsert_other _ _ _ _ (hne m (by simp [hm]))]
          exact hsame m (by simp [hm])
        obtain ⟨fsk2, hml, hstem2, hpres⟩ := ih (fsInsert fsk stem (acc ++ c))
          (acc ++ c) rest hacc2 (fun m hm => hne m (by simp [hm])) hsame2 hrest
        refine ⟨fsk2, hml, ?_, ?_⟩
        · rw [hstem2, List.append_assoc]
        · intro m hm
          rw [hpres m hm, fsLookup_fsInsert_other _ _ _ _ hm]

theorem removeAll_spec :
    ∀ (names : List (List Char)) (fsk : FileSys),
      (∀ n ∈ names, (fsLookup fsk n).isSome = true) → names.Nodup →
      ∃ fsk2, removeAll fsk names = some fsk2
        ∧ (∀ n ∈ names, fsLookup fsk2 n = none)
        ∧ (∀ m, m ∉ names → fsLookup fsk2 m = fsLookup fsk m) := by
  intro names
  induction names with
  | nil =>
    intro fsk _ _
    exact ⟨fsk, rfl, by simp, fun m _ => rfl⟩
  | cons n ns ih =>
    intro fsk hsome hnd
    have h1 : (fsLookup fsk n).isSome = true := hsome n (by simp)
    have hrc : fsRemoveChecked fsk n = some (fsk.filter (fun ent => ent.1 ≠ n)) := by
      unfold fsRemoveChecked
      rw [if_pos h1]
    simp only [removeAll]
    rw [hrc]
    obtain ⟨hnotin, hnd2⟩ := List.nodup_cons.mp hnd
    have hsome2 : ∀ m ∈ ns,
        (fsLookup (fsk.filter (fun ent => ent.1 ≠ n)) m).isSome = true := by
      intro m hm
      rw [fsLookup_filter_other fsk n m (fun hh => hnotin (hh ▸ hm))]
      exact hsome m (by simp [hm])
    obtain ⟨fsk2, hrem, hnone, hpres⟩ := ih (fsk.filter (fun ent => ent.1 ≠ n)) hsome2 hnd2
    refine ⟨fsk2, hrem, ?_, ?_⟩
    · intro m hm
      rcases List.mem_cons.mp hm with hm1 | hm2
      · subst hm1
        rw [hpres m hnotin, fsLookup_filter_self]
      · exact hnone m hm2
    · intro m hm
      have hm1 : m ≠ n := fun hh => hm (by rw [hh]; simp)
      have hm2 : m ∉ ns := fun hh => hm (by simp [hh])
      rw [hpres m hm2, fsLookup_filter_other fsk n m hm1]

theorem mergeGroup_spec (fs0 fsk : FileSys) (stem : List Char)
    (group sorted : List (List Char)) (bs : List Nat)
    (hsort : sortParts group = some sorted)
    (hstem : stem ∉ sorted)
    (hnd : sorted.Nodup)
    (hsame : ∀ n ∈ sorted, fsLookup fsk n = fsLookup fs0 n)
    (hra : readAllFrom fs0 sorted = some bs) :
    ∃ fsk2, mergeGroup fsk stem group = some fsk2
      ∧ fsLookup fsk2 stem = some bs
      ∧ (∀ n ∈ sorted, fsLookup fsk2 n = none)
      ∧ (∀ m, m ≠ stem → m ∉ sorted → fsLookup fsk2 m = fsLookup fsk m) := by
  unfold mergeGroup
  rw [hsort]
  dsimp only
  have hacc : fsLookup (fsInsert fsk stem []) stem = some [] :=
    fsLookup_fsInsert_self _ _ _
  have hne : ∀ n ∈ sorted, n ≠ stem := fun n hn hh => hstem (hh ▸ hn)
  have hsame1 : ∀ n ∈ sorted, fsLookup (fsInsert fsk stem []) n = fsLookup fs0 n := by
    intro n hn
    rw [fsLookup_fsInsert_other _ _ _ _ (hne n hn)]
    exact hsame n hn
  obtain ⟨fsA, hml, hstemA, hpresA⟩ := mergeLoop_spec fs0 stem sorted
    (fsInsert fsk stem []) [] bs hacc hne hsame1 hra
  rw [hml]
  dsimp only
  have hsomeA : ∀ n ∈ sorted, (fsLookup fsA n).isSome = true := by
    intro n hn
    rw [hpresA n (hne n hn), fsLookup_fsInsert_other _ _ _ _ (hne n hn), hsame n hn]
    obtain ⟨c, hc⟩ := readAllFrom_mem_isSome fs0 sorted bs hra n hn
    rw [hc]
    rfl
  obtain ⟨fsk2, hrm, hnone, hpres2⟩ := removeAll_spec sorted fsA hsomeA hnd
  refine ⟨fsk2, hrm, ?_, hnone, ?_⟩
  · rw [hpres2 stem hstem, hstemA]
    simp
  · intro m hm1 hm2
    rw [hpres2 m hm2, hpresA m hm1, fsLookup_fsInsert_other _ _ _ _ hm1]

/-
  Prefix facts: a well formed part name strictly extends its stem, and under the
  no overlap hypothesis the startswith grouping agrees with exact stem grouping.
-/

theorem pyStartsWith_refl (s : List Char) : pyStartsWith s s = true := by
  have h := pyStartsWith_append_self s []
  rwa [List.append_nil] at h

theorem stemOf_shorter (f : List Char) (h : wellFormedPart f = true) :
    stemOf f ≠ f ∧ pyStartsWith f (stemOf f) = true := by
  obtain ⟨st, n, hr, hne, hd⟩ := wellFormedPart_elim f h
  have hdec := rsplitPart_decomp f st n hr
  have hstem : stemOf f = st := by
    unfold stemOf
    rw [hr]
  constructor
  · rw [hstem]
    intro hh
    rw [← hh] at hdec
    have hlen := congrArg List.length hdec
    have htag : litPartTag.length = 5 := rfl
    have hnlen : 1 ≤ n.length := by
      cases n with
      | nil => exact absurd rfl hne
      | cons a b => simp
    simp [List.length_append, htag] at hlen
  · rw [hstem, hdec, List.append_assoc]
    exact pyStartsWith_append_self st _

theorem stems_disjoint_pf (pf : List (List Char))
    (h1 : ∀ f ∈ pf, wellFormedPart f = true)
    (h2 : ∀ f ∈ pf, ∀ st ∈ stemsOf pf, pyStartsWith f st = true → stemOf f = st) :
    ∀ st ∈ stemsOf pf, st ∉ pf := by
  intro st hst hstpf
  have h3 := h2 st hstpf st hst (pyStartsWith_refl st)
  exact (stemOf_shorter st (h1 st hstpf)).1 h3

theorem group_filter_eq (pf : List (List Char))
    (h1 : ∀ f ∈ pf, wellFormedPart f = true)
    (h2 : ∀ f ∈ pf, ∀ st ∈ stemsOf pf, pyStartsWith f st = true → stemOf f = st) :
    ∀ st ∈ stemsOf pf,
      pf.filter (fun f => pyStartsWith f st) = specGroup pf st := by
  intro st hst
  unfold specGroup
  apply List.filter_congr
  intro f hf
  cases hsw : pyStartsWith f st with
  | true =>
    have h3 := h2 f hf st hst hsw
    simp [h3]
  | false =>
    have hdec : decide (stemOf f = st) = false := by
      rw [decide_eq_false_iff_not]
      intro hh
      have h4 := (stemOf_shorter f (h1 f hf)).2
      rw [hh] at h4
      rw [h4] at hsw
      exact Bool.noConfusion hsw
    rw [hdec]

/-
  The fold over the prefixes, processed ones in S and remaining ones in R.
-/

theorem mergeFold_go (fs0 : FileSys) (pf : List (List Char))
    (hGroups : ∀ st ∈ stemsOf pf,
      pf.filter (fun f => pyStartsWith f st) = specGroup pf st)
    (hPack : ∀ st ∈ stemsOf pf, ∃ sorted bs,
      sortParts (specGroup pf st) = some sorted
      ∧ sorted.Nodup
      ∧ (∀ n, n ∈ sorted ↔ n ∈ specGroup pf st)
      ∧ readAllFrom fs0 sorted = some bs
      ∧ st ∉ sorted)
    (hStemsNotPf : ∀ st ∈ stemsOf pf, st ∉ pf) :
    ∀ (R S : List (List Char)) (fsk : FileSys),
      stemsOf pf = S ++ R →
      (stemsOf pf).Nodup →
      (∀ st ∈ S, ∃ bs, specNumericConcat fs0 (specGroup pf st) = some bs
          ∧ fsLookup fsk st = some bs) →
      (∀ f ∈ pf, stemOf f ∈ S → fsLookup fsk f = none) →
      (∀ m, m ∉ S → (m ∈ pf → stemOf m ∉ S) → fsLookup fsk m = fsLookup fs0 m) →
      ∃ fsk2, mergeFold pf fsk R = some fsk2
        ∧ (∀ st ∈ S ++ R, ∃ bs, specNumericConcat fs0 (specGroup pf st) = some bs
            ∧ fsLookup fsk2 st = some bs)
        ∧ (∀ f ∈ pf, stemOf f ∈ S ++ R → fsLookup fsk2 f = none)
        ∧ (∀ m, m ∉ S ++ R → (m ∈ pf → stemOf m ∉ S ++ R) →
            fsLookup fsk2 m = fsLookup fs0 m) := by
  intro R
  induction R with
  | nil =>
    intro S fsk hSR hnd hC1 hC2 hC3
    refine ⟨fsk, rfl, ?_, ?_, ?_⟩
    · intro st hst
      exact hC1 st (by simpa using hst)
    · intro f hf hst
      exact hC2 f hf (by simpa using hst)
    · intro m hm1 hm2
      refine hC3 m (fun hh => hm1 (by simpa using hh)) ?_
      intro hf hh
      exact hm2 hf (by simpa using hh)
  | cons st R2 ih =>
    intro S fsk hSR hnd hC1 hC2 hC3
    have hstmem : st ∈ stemsOf pf := by
      rw [hSR]
      exact List.mem_append_right S (by simp)
    have hstS : st ∉ S := by
      rw [hSR] at hnd
      have hd := List.disjoint_of_nodup_append hnd
      exact fun hh => hd hh (by simp)
    obtain ⟨sorted, bs, hsort, hndS, hmemS, hra, hstF⟩ := hPack st hstmem
    have hsame : ∀ n ∈ sorted, fsLookup fsk n = fsLookup fs0 n := by
      intro n hn
      have hng : n ∈ specGroup pf st := (hmemS n).mp hn
      have hnpf : n ∈ pf := List.mem_of_mem_filter hng
      have hstem_n : stemOf n = st := of_decide_eq_true (List.mem_filter.mp hng).2
      apply hC3
      · intro hnS
        have hns : n ∈ stemsOf pf := by
          rw [hSR]
          exact List.mem_append_left _ hnS
        exact hStemsNotPf n hns hnpf
      · intro _
        rw [hstem_n]
        exact hstS
    obtain ⟨fskB, hmg, hstemB, hnoneB, hpresB⟩ := mergeGroup_spec fs0 fsk st
      (specGroup pf st) sorted bs hsort hstF hndS hsame hra
    simp only [mergeFold]
    rw [hGroups st hstmem, hmg]
    dsimp only
    have hSR2 : stemsOf pf = (S ++ [st]) ++ R2 := by
      rw [hSR]
      simp
    have hC1b : ∀ s2 ∈ S ++ [st], ∃ bs2,
        specNumericConcat fs0 (specGroup pf s2) = some bs2
        ∧ fsLookup fskB s2 = some bs2 := by
      intro s2 hs2
      rcases List.mem_append.mp hs2 with hs2a | hs2b
      · obtain ⟨bs2, hspec2, hlook2⟩ := hC1 s2 hs2a
        refine ⟨bs2, hspec2, ?_⟩
        have hne2 : s2 ≠ st := fun hh => hstS (hh ▸ hs2a)
        have hnin2 : s2 ∉ sorted := by
          intro hh
          have h5 : s2 ∈ pf := List.mem_of_mem_filter ((hmemS s2).mp hh)
          have h6 : s2 ∈ stemsOf pf := by
            rw [hSR]
            exact List.mem_append_left _ hs2a
          exact hStemsNotPf s2 h6 h5
        rw [hpresB s2 hne2 hnin2]
        exact hlook2
      · have hs2c : s2 = st := by simpa using hs2b
        subst hs2c
        refine ⟨bs, ?_, hstemB⟩
        unfold specNumericConcat
        rw [hsort]
        exact hra
    have hC2b : ∀ f ∈ pf, stemOf f ∈ S ++ [st] → fsLookup fskB f = none := by
      intro f hf hstf
      rcases List.mem_append.mp hstf with hfa | hfb
      · have hne3 : f ≠ st := fun hh => hStemsNotPf st hstmem (hh ▸ hf)
        have hnin3 : f ∉ sorted := by
          intro hh
          have h7 : stemOf f = st := of_decide_eq_true
            (List.mem_filter.mp ((hmemS f).mp hh)).2
          rw [h7] at hfa
          exact hstS hfa
        rw [hpresB f hne3 hnin3]
        exact hC2 f hf hfa
      · have hfb2 : stemOf f = st := by simpa using hfb
        have hfg : f ∈ specGroup pf st := List.mem_filter.mpr ⟨hf, by simp [hfb2]⟩
        exact hnoneB f ((hmemS f).mpr hfg)
    have hC3b : ∀ m, m ∉ S ++ [st] → (m ∈ pf → stemOf m ∉ S ++ [st]) →
        fsLookup fskB m = fsLookup fs0 m := by
      intro m hm1 hm2
      have hm1S : m ∉ S := fun hh => hm1 (List.mem_append_left _ hh)
      have hm1st : m ≠ st := fun hh => hm1 (List.mem_append_right _ (by simp [hh]))
      have hmsorted : m ∉ sorted := by
        intro hh
        have hmg2 := (hmemS m).mp hh
        have hmpf : m ∈ pf := List.mem_of_mem_filter hmg2
        have h8 : stemOf m = st := of_decide_eq_true (List.mem_filter.mp hmg2).2
        exact (hm2 hmpf) (List.mem_append_right _ (by simp [h8]))
      rw [hpresB m hm1st hmsorted]
      refine hC3 m hm1S ?_
      intro hmpf hh
      exact (hm2 hmpf) (List.mem_append_left _ hh)
    obtain ⟨fsk2, hfold, hc1f, hc2f, hc3f⟩ := ih (S ++ [st]) fskB hSR2 hnd hC1b hC2b hC3b
    have hEq : (S ++ [st]) ++ R2 = S ++ st :: R2 := by simp
    rw [hEq] at hc1f hc2f hc3f
    exact ⟨fsk2, hfold, hc1f, hc2f, hc3f⟩

/-- Claim C5 (corrected).  In a directory whose part file names are well formed
and where no stem of one group is a proper prefix of another part file name,
the merger produces for every stem a file holding the numeric order
concatenation of the bytes of that stem group taken from the original
directory, removes every part file, and leaves every other name untouched;
a directory with no part files is left as is by the guard.  Without the no
overlap hypothesis the startswith grouping diverges from the per prefix
grouping of the spec and the whole merge fails, see the counterexample. -/
theorem c5_merge_parts (fs : FileSys)
    (h0 : (fs.map Prod.fst).Nodup)
    (h1 : ∀ f ∈ partFileNames fs, wellFormedPart f = true)
    (h2 : ∀ f ∈ partFileNames fs, ∀ st ∈ stemsOf (partFileNames fs),
      pyStartsWith f st = true → stemOf f = st) :
    (partFileNames fs = [] → mergePartsGuard fs = some fs)
    ∧ (partFileNames fs ≠ [] → mergePartsGuard fs = mergeParts fs)
    ∧ ∃ fs2, mergeParts fs = some fs2
      ∧ (∀ st ∈ stemsOf (partFileNames fs), ∃ bs,
          specNumericConcat fs (specGroup (partFileNames fs) st) = some bs
          ∧ fsLookup fs2 st = some bs)
      ∧ (∀ f ∈ partFileNames fs, fsLookup fs2 f = none)
      ∧ (∀ m, m ∉ stemsOf (partFileNames fs) → m ∉ partFileNames fs →
          fsLookup fs2 m = fsLookup fs m) := by
  have hpfnd : (partFileNames fs).Nodup := h0.filter _
  have hGroups := group_filter_eq (partFileNames fs) h1 h2
  have hDisj := stems_disjoint_pf (partFileNames fs) h1 h2
  have hStems : ∀ f ∈ partFileNames fs, stemOf f ∈ stemsOf (partFileNames fs) := by
    intro f hf
    exact (dedupFirst_mem _ _).mpr (List.mem_map_of_mem stemOf hf)
  have hPack : ∀ st ∈ stemsOf (partFileNames fs), ∃ sorted bs,
      sortParts (specGroup (partFileNames fs) st) = some sorted
      ∧ sorted.Nodup
      ∧ (∀ n, n ∈ sorted ↔ n ∈ specGroup (partFileNames fs) st)
      ∧ readAllFrom fs sorted = some bs
      ∧ st ∉ sorted := by
    intro st hst
    have hgsub : ∀ f ∈ specGroup (partFileNames fs) st, f ∈ partFileNames fs :=
      fun f hf => List.mem_of_mem_filter hf
    have hgwf : ∀ f ∈ specGroup (partFileNames fs) st, wellFormedPart f = true :=
      fun f hf => h1 f (hgsub f hf)
    have hsort := sortParts_of_wf (specGroup (partFileNames fs) st) hgwf
    have hperm := stableSortByKey_perm (fun f => (partNum f).getD 0)
      (specGroup (partFileNames fs) st)
    have hndG : (specGroup (partFileNames fs) st).Nodup := hpfnd.filter _
    have hndS := hperm.nodup_iff.mpr hndG
    have hsome : ∀ n ∈ stableSortByKey (fun f => (partNum f).getD 0)
        (specGroup (partFileNames fs) st), (fsLookup fs n).isSome = true := by
      intro n hn
      have hng := hperm.mem_iff.mp hn
      have hnpf := hgsub n hng
      exact fsLookup_isSome_of_mem fs n (List.mem_of_mem_filter hnpf)
    obtain ⟨bs, hra⟩ := readAllFrom_isSome fs _ hsome
    refine ⟨_, bs, hsort, hndS, fun n => hperm.mem_iff, hra, ?_⟩
    intro hh
    exact hDisj st hst (hgsub st (hperm.mem_iff.mp hh))
  obtain ⟨fs2, hfold, hc1, hc2, hc3⟩ := mergeFold_go fs (partFileNames fs)
    hGroups hPack hDisj (stemsOf (partFileNames fs)) [] fs rfl
    (dedupFirst_nodup _)
    (by intro st hst; simp at hst)
    (by intro f hf hst; simp at hst)
    (fun m _ _ => rfl)
  refine ⟨?_, ?_, fs2, hfold, hc1, ?_, ?_⟩
  · intro hnil
    have hany : (fs.map Prod.fst).any containsPartTag = false := by
      rw [List.any_eq_false]
      intro x hx hpx
      have hmem : x ∈ partFileNames fs := List.mem_filter.mpr ⟨hx, hpx⟩
      rw [hnil] at hmem
      exact List.not_mem_nil x hmem
    unfold mergePartsGuard
    rw [hany]
    simp
  · intro hne
    cases hpfe : partFileNames fs with
    | nil => exact absurd hpfe hne
    | cons y ys =>
      have hy : y ∈ partFileNames fs := by
        rw [hpfe]
        simp
      have hyf := List.mem_filter.mp hy
      have hany : (fs.map Prod.fst).any containsPartTag = true :=
        List.any_eq_true.mpr ⟨y, hyf.1, hyf.2⟩
      unfold mergePartsGuard
      rw [hany]
      simp
  · intro f hf
    exact hc2 f hf (hStems f hf)
  · intro m hm1 hm2
    exact hc3 m hm1 (fun hf => absurd hf hm2)

/-- Witness for C5: the ten part directory satisfies all hypotheses; the merge
produces the file x with bytes 1..10 in numeric order, part2 before part10. -/
theorem c5_merge_parts_witness :
    (∃ fs2, mergeParts exMergeDir = some fs2
      ∧ (∀ st ∈ stemsOf (partFileNames exMergeDir), ∃ bs,
          specNumericConcat exMergeDir (specGroup (partFileNames exMergeDir) st) = some bs
          ∧ fsLookup fs2 st = some bs)
      ∧ (∀ f ∈ partFileNames exMergeDir, fsLookup fs2 f = none)
      ∧ (∀ m, m ∉ stemsOf (partFileNames exMergeDir) → m ∉ partFileNames exMergeDir →
          fsLookup fs2 m = fsLookup exMergeDir m))
    ∧ (mergeParts exMergeDir).map (fun fs2 => fsLookup fs2 (("x").toList))
        = some (some [1, 2, 3, 4, 5, 6, 7, 8, 9, 10]) :=
  ⟨(c5_merge_parts exMergeDir (by decide) (by decide) (by decide)).2.2, by decide⟩

/-- Counterexample for C5 as originally stated: with x.part1 and xy.part2 the
startswith grouping puts xy.part2 into the group of stem x, the spec grouping
does not; after the group of x is merged and its parts deleted, the group of
xy fails to read xy.part2 again, so the whole merge returns no directory at
all while the per prefix spec concatenation of group x succeeds. -/
theorem c5_merge_parts_counterexample :
    mergeParts exOverlapDir = none
    ∧ specNumericConcat exOverlapDir
        (specGroup (partFileNames exOverlapDir) (("x").toList)) = some [1]
    ∧ mergePartsGuard exOverlapDir = none := by
  decide
